import Mathlib

/-!
Verification of the par-lang front-end-to-interaction-net compiler.

This file gives a shallow embedding of the two components the claims are
about:

* the branch/program folds of the recursive-descent parser
  (`src/par/parser.rs`): `typ_send` / `typ_receive` / `typ_branch_receive`
  argument folding, the `either`/`choice` branch-map folds, and the
  top-level `program` item fold;
* the interaction-net compiler (`src/icombs/compiler.rs`): `Compiler` with
  its variable environment, `compile_global`, `use_variable`,
  `with_captures` scope exit, `cast`, `multiplex_trees`,
  `choice_instance`, `either_instance` and the expression/process/command
  lowering.

The compiler is mutually recursive through global compilation
(`compile_global` → `compile_expression` → `use_variable` →
`compile_global`), so it is embedded as a single fuel-indexed interpreter
`interp` over a sum type `Call` of the mutually recursive entry points;
each Rust function corresponds to one `Call` arm, and named wrappers
(`compile_global`, `use_variable`, …) recover the source's signatures.
Fuel recursion is structural, so concrete runs evaluate by kernel
reduction.  A Rust `panic!` / failed `unwrap` / `todo!` / `unreachable!`
is modelled as the `Res.panicked` outcome carrying the panic message.

Several supporting modules of the repository are not present under the
sources given (notably `par/types.rs`, `par/process.rs`, `icombs/net.rs`);
where the embedding needs them they are modelled from the spec, and each
such definition says so in its doc comment.
-/

namespace ParLang

/-- Ordered association list modelling `indexmap::IndexMap` as used by the
compiler and parser: lookups scan in insertion order, `insert` replaces the
value of an existing key in place (keeping its position) and appends fresh
keys at the end. -/
abbrev IndexMap (α β : Type) : Type := List (α × β)

/-- The `IndexMap::get` lookup: value of the first entry with the key. -/
def getIM {α β : Type} [DecidableEq α] : IndexMap α β → α → Option β
  | [], _ => none
  | (k', v) :: rest, k => if k' = k then some v else getIM rest k

/-- The `IndexMap::insert` operation: replace in place or append. -/
def insertIM {α β : Type} [DecidableEq α] : IndexMap α β → α → β → IndexMap α β
  | [], k, v => [(k, v)]
  | (k', v') :: rest, k, v =>
    if k' = k then (k', v) :: rest else (k', v') :: insertIM rest k v

/-- The `IndexMap::get_index_of` operation: position of the key in the
declared insertion order. -/
def getIndexOfIM {α β : Type} [DecidableEq α] : IndexMap α β → α → Option Nat
  | [], _ => none
  | (k', _) :: rest, k =>
    if k' = k then some 0 else (getIndexOfIM rest k).map (· + 1)

/-- The `IndexMap::swap_remove` operation: remove the entry with the key by
swapping the last entry into its slot and popping the end. Returns the
removed value together with the remaining map. -/
def swapRemoveIM {α β : Type} [DecidableEq α] (m : IndexMap α β) (k : α) :
    Option (β × IndexMap α β) :=
  match getIndexOfIM m k, getIM m k, m.getLast? with
  | some i, some v, some lastE => some (v, (m.set i lastE).dropLast)
  | _, _, _ => none

/-- Keys of an `IndexMap`, in insertion order. -/
def keysIM {α β : Type} (m : IndexMap α β) : List α := m.map Prod.fst

/-- Values of an `IndexMap`, in insertion order (`IndexMap::values`). -/
def valuesIM {α β : Type} (m : IndexMap α β) : List β := m.map Prod.snd

/-- Byte-lexicographic order on key character lists.  Modelled from the
spec: `Name` is an "opaque identifier string" compared by string; this is
the standard lexicographic string order used by `IndexMap::sort_keys`,
written out over `Char` codes so that it evaluates by kernel reduction. -/
def keyLe : List Char → List Char → Bool
  | [], _ => true
  | _ :: _, [] => false
  | a :: as, b :: bs =>
    if a.toNat < b.toNat then true
    else if b.toNat < a.toNat then false
    else keyLe as bs

/-- Order on map entries by key, for `sort_keys`. -/
def entryLe {β : Type} (p q : String × β) : Prop := keyLe p.1.data q.1.data = true

instance {β : Type} : DecidableRel (@entryLe β) := fun p q =>
  inferInstanceAs (Decidable (keyLe p.1.data q.1.data = true))

/-- The `IndexMap::sort_keys` operation: sort the entries by key, keeping
values attached. -/
def sortKeysIM {β : Type} (m : IndexMap String β) : IndexMap String β :=
  List.insertionSort entryLe m

/-- Session types (`Type<Loc, Name>` from `par/types.rs`).  Modelled from
the spec (§3): that module is not among the given sources.  `Loc` fields,
which the compiler matches with `_` everywhere, are omitted; the fixed
point and polymorphism constructors keep only the payloads the compiler
could inspect. -/
inductive Ty where
  | TName (s : String) (args : List Ty)
  | Chan (t : Ty)
  | Send (a b : Ty)
  | Receive (a b : Ty)
  | Either (branches : List (String × Ty))
  | Choice (branches : List (String × Ty))
  | Break
  | Continue
  | Recursive (t : Ty)
  | Iterative (t : Ty)
  | Self_
  | SendType (t : Ty)
  | ReceiveType (t : Ty)

mutual
/-- Duality on session types.  Modelled from the spec (§3, §4.4): `dual`
swaps `Send`/`Receive` (first argument unchanged, continuation dualized,
per the explicit formula of §3), `Either`/`Choice` (distributing over the
branches), `Break`/`Continue`, and strips or adds `Chan` on the remaining
constructors.  No claim in this file depends on the convention chosen for
the cases where the spec is silent or in tension with itself. -/
def dual : Ty → Ty
  | .TName s args => .Chan (.TName s args)
  | .Chan t => t
  | .Send a b => .Receive a (dual b)
  | .Receive a b => .Send a (dual b)
  | .Either bs => .Choice (dualBranches bs)
  | .Choice bs => .Either (dualBranches bs)
  | .Break => .Continue
  | .Continue => .Break
  | .Recursive t => .Chan (.Recursive t)
  | .Iterative t => .Chan (.Iterative t)
  | .Self_ => .Chan .Self_
  | .SendType t => .Chan (.SendType t)
  | .ReceiveType t => .Chan (.ReceiveType t)

/-- Duality distributed over a branch map. -/
def dualBranches : IndexMap String Ty → IndexMap String Ty
  | [] => []
  | (k, t) :: rest => (k, dual t) :: dualBranches rest
end

/-- Interaction-net trees (`icombs::net::Tree`).  Modelled from the spec
(§3): `net.rs` is not among the given sources.  Node kinds: erasure `e`,
binary combinator `c`, duplication `d`, wire half-edges (created in pairs
sharing an id), and package references. -/
inductive Tree where
  | e
  | c (a b : Tree)
  | d (a b : Tree)
  | Wire (id : Nat)
  | Package (id : Nat)
  deriving DecidableEq, Repr

/-- The mutable net (`icombs::net::Net`).  Modelled from the spec (§3,
§4.2): a free-ports deque, pending links, a wire-id supply, and the
package-table snapshot shared with the reducer. -/
structure Net where
  nextWire : Nat
  links : List (Tree × Tree)
  ports : List Tree
  packages : List (Nat × Tree)
  deriving DecidableEq, Repr

/-- The empty net (`Net::default()`). -/
def Net.empty : Net := ⟨0, [], [], []⟩

/-- The opaque net reducer (`Net::normal`).  Modelled from the spec (§4.2,
§6): the reducer is an external collaborator that terminates and preserves
net equivalence; it is embedded as the identity on the net, which no claim
in this file depends on. -/
def Net.normal (n : Net) : Net := n

/-- A net tree paired with its session type (`TypedTree`). -/
structure TypedTree where
  tree : Tree
  ty : Ty

/-- Usage discipline of a bound variable (`VariableKind`). -/
inductive VariableKind where
  | Linear
  | Replicable
  | Boxed
  deriving DecidableEq, Repr

mutual
/-- Typed expressions (`Expression` from `par/process.rs`).  Modelled from
the spec (§3) and the patterns matched in `compile_expression`: that
module is not among the given sources.  `Loc` fields and the unused
annotation slot of `Fork` are omitted; `captures` keeps the capture names
in order. -/
inductive Expr where
  | Reference (name : String) (ty : Ty)
  | Fork (captures : List String) (chan : String) (ty : Ty) (proc : Process)

/-- Processes (`Process`).  `compile_process` handles `Let` and `Do` and
hits `todo!()` on every other constructor, which `Unsupported` stands
for. -/
inductive Process where
  | Let (key : String) (value : Expr) (rest : Process)
  | Do (name : String) (ty : Ty) (cmd : Command)
  | Unsupported

/-- Commands on a named channel (`Command`), exactly the constructors
matched by `compile_command`. -/
inductive Command where
  | Link (e : Expr)
  | Send (e : Expr) (p : Process)
  | Receive (target : String) (p : Process)
  | SendType (p : Process)
  | ReceiveType (p : Process)
  | Choose (chosen : String) (p : Process)
  | Match (names : List String) (procs : List Process)
  | Break
  | Continue (p : Process)
  | Begin
  | Loop
end

/-- The program handed to the net compiler (`Prog<Loc, Name>` =
`Program<Name, Arc<Expression<…>>>`).  Only the `definitions` map is read
by the compiler. -/
structure Prog where
  definitions : IndexMap String Expr

/-- The compiler state: the fields of `Compiler` that change during
compilation (the program itself is a fixed parameter of `interp`). -/
structure CState where
  net : Net
  vars : IndexMap String (TypedTree × VariableKind)
  names : IndexMap String Nat
  idToTy : List Ty
  idToPackage : List Tree

/-- Outcome of a fueled compiler computation: out of fuel, a Rust panic
with its message, or a value with the updated state. -/
inductive Res (α : Type) where
  | fuelOut
  | panicked (msg : String)
  | ok (val : α) (state : CState)

/-- State-and-panic computations of the compiler. -/
def CompM (α : Type) : Type := CState → Res α

instance : Monad CompM where
  pure a := fun σ => .ok a σ
  bind x f := fun σ =>
    match x σ with
    | .fuelOut => .fuelOut
    | .panicked m => .panicked m
    | .ok a σ' => f a σ'

/-- Raise a Rust `panic!` with the given message. -/
def panicC {α : Type} (msg : String) : CompM α := fun _ => .panicked msg

/-- The message of a failed `Option::unwrap()`. -/
def unwrapMsg : String := "called `Option::unwrap()` on a `None` value"

/-- The message of Rust's `unreachable!()`. -/
def unreachableMsg : String := "internal error: entered unreachable code"

/-- Read the whole compiler state. -/
def getC : CompM CState := fun σ => .ok σ σ

/-- Replace the whole compiler state (used only where the source mutates
several fields at once). -/
def setC (σ' : CState) : CompM Unit := fun _ => .ok () σ'

/-- Replace the active net (`self.net = old_net`). -/
def setNet (n : Net) : CompM Unit := fun σ => .ok () { σ with net := n }

/-- Replace the variable environment, returning the previous one
(`core::mem::swap(&mut vars, &mut self.vars)`). -/
def swapVars (new : IndexMap String (TypedTree × VariableKind)) :
    CompM (IndexMap String (TypedTree × VariableKind)) :=
  fun σ => .ok σ.vars { σ with vars := new }

/-- Empty out the variable environment, returning it
(`core::mem::take(&mut self.vars)`). -/
def takeVars : CompM (IndexMap String (TypedTree × VariableKind)) :=
  fun σ => .ok σ.vars { σ with vars := [] }

/-- Insert a binding into the variable environment (`self.vars.insert`),
silently replacing any existing binding for the name. -/
def insertVar (name : String) (entry : TypedTree × VariableKind) : CompM Unit :=
  fun σ => .ok () { σ with vars := insertIM σ.vars name entry }

/-- `Net::create_wire`: a fresh pair of wire half-edges sharing an id. -/
def create_wire : CompM (Tree × Tree) :=
  fun σ =>
    .ok (Tree.Wire σ.net.nextWire, Tree.Wire σ.net.nextWire)
      { σ with net := { σ.net with nextWire := σ.net.nextWire + 1 } }

/-- `Net::link`: enqueue a pending connection.  Modelled from the spec
(§4.2): the wire-unification bookkeeping of the reducer is opaque; links
are recorded in order. -/
def link (a b : Tree) : CompM Unit :=
  fun σ => .ok () { σ with net := { σ.net with links := σ.net.links ++ [(a, b)] } }

/-- `Compiler::create_typed_wire`: a wire pair typed `t` and `dual t`. -/
def create_typed_wire (t : Ty) : CompM (TypedTree × TypedTree) := do
  let (v0, v1) ← create_wire
  pure (⟨v0, t⟩, ⟨v1, dual t⟩)

/-- `Compiler::bind_variable`: insert as `Linear`; a prior binding for the
name is a fatal assertion failure. -/
def bind_variable (name : String) (tree : TypedTree) : CompM Unit :=
  fun σ =>
    match getIM σ.vars name with
    | some _ => .panicked "assertion failed: bind_variable: variable already bound"
    | none => .ok () { σ with vars := insertIM σ.vars name (tree, VariableKind.Linear) }

/-- The scope-exit loop at the end of `Compiler::with_captures`: walk the
residual inner environment in order; a `Linear` residual is a fatal
`"some variables were not closed"` panic, every other residual has its
handle linked to the erasure node `E`. -/
def with_captures_exit :
    List (String × (TypedTree × VariableKind)) → Net → Except String Net
  | [], n => .ok n
  | (name, (value, kind)) :: rest, n =>
    if kind = VariableKind.Linear then
      .error ("some variables were not closed: " ++ name)
    else
      with_captures_exit rest
        { n with links := n.links ++ [(value.tree, Tree.e)] }

/-- Run the `with_captures` scope-exit loop against the active net. -/
def exitC (residual : List (String × (TypedTree × VariableKind))) : CompM Unit :=
  fun σ =>
    match with_captures_exit residual σ.net with
    | .error m => .panicked m
    | .ok n => .ok () { σ with net := n }

/-- Recursion worker for `multiplex_trees`.  Splitting at the midpoint
halves the list, so the recursion depth is bounded by the list length;
the first argument makes that bound explicit so the definition is
structurally recursive and evaluates by kernel reduction
(`multiplex_trees_go_fuel` shows the result does not depend on the bound
whenever it is sufficient, so the depth-exhausted arm is never taken). -/
def multiplex_trees_go : Nat → List Tree → Tree
  | _, [] => Tree.e
  | _, [t] => t
  | 0, _ :: _ :: _ => Tree.e
  | fuel + 1, a :: b :: rest =>
    Tree.c
      (multiplex_trees_go fuel ((a :: b :: rest).take ((a :: b :: rest).length / 2)))
      (multiplex_trees_go fuel ((a :: b :: rest).drop ((a :: b :: rest).length / 2)))

/-- `multiplex_trees`: balanced binary combination with `C` nodes — empty
becomes `E`, a single tree is returned as is, otherwise the list is split
at its midpoint (`split_off(len / 2)`) and both halves are combined
recursively. -/
def multiplex_trees (trees : List Tree) : Tree :=
  multiplex_trees_go trees.length trees

/-- `Compiler::choice_instance`: `out_of` slots, all erasure except slot
`index` which carries `C(w1, tree)`, multiplexed together behind `w0`; an
out-of-range index is the fatal unwrap of `get_mut`. -/
def choice_instance (tree : Tree) (index out_of : Nat) : CompM Tree := do
  let (w0, w1) ← create_wire
  if index < out_of then
    pure (Tree.c w0
      (multiplex_trees ((List.replicate out_of Tree.e).set index (Tree.c w1 tree))))
  else
    panicC unwrapMsg

/-- `Compiler::either_instance`: multiplex the cases, each paired with a
`C` node, behind the context-out tree. -/
def either_instance (ctx_out : Tree) (cases : List (Tree × Tree)) : Tree :=
  Tree.c ctx_out (multiplex_trees (cases.map (fun p => Tree.c p.1 p.2)))

/-- The branch index computed by the `Command::Choose` arm: the position
of the chosen branch after `branches.sort_keys()`.  Modelled from the
spec (§4.6, §9): the source line names the map's `sort_keys` and
`get_index_of` but does not compile as written, and §4.6 documents the
index as "the branch index in the sorted branch order". -/
def choose_branch_index (branches : IndexMap String Ty) (chosen : String) : Option Nat :=
  getIndexOfIM (sortKeysIM branches) chosen

/-- The per-case loop of the `Choice → Choice` arm of `Compiler::cast`:
for each branch of the source choice, build a single-branch
`choice_instance` at the branch's `get_index_of` position within the
target's declared branch order. -/
def cast_choice_cases (to_choices : IndexMap String Ty) (out_of : Nat) :
    List (String × Ty) → CompM (List (Tree × Tree))
  | [] => pure []
  | (k, ty) :: rest => do
    let (x0, x1) ← create_typed_wire ty
    match getIndexOfIM to_choices k with
    | none => panicC "Can't cast between these choices"
    | some index => do
      let ci ← choice_instance x1.tree index out_of
      let others ← cast_choice_cases to_choices out_of rest
      pure ((ci, x0.tree) :: others)

/-- The per-branch context rewiring inside the `Command::Match` branch
loop: for each multiplexed variable, create a fresh wire, rebind the
variable to one end at its recorded type and kind, and collect the other
end for the branch's context-out multiplexing. -/
def match_branch_rewire :
    List (String × (Ty × VariableKind)) → CompM (List Tree)
  | [] => pure []
  | (nm, (ty, kind)) :: rest => do
    let (v0, v1) ← create_wire
    insertVar nm (⟨v0, ty⟩, kind)
    let others ← match_branch_rewire rest
    pure (v1 :: others)

/-- Push the finished definition's tree onto the net's free ports
(`self.net.ports.push_back(tree.tree)`). -/
def pushPort (t : Tree) : CompM Unit :=
  fun σ => .ok () { σ with net := { σ.net with ports := σ.net.ports ++ [t] } }

/-- Snapshot the package table into the net
(`self.net.packages = Arc::new(self.id_to_package … .enumerate() …)`). -/
def snapshotPackages : CompM Unit :=
  fun σ => .ok () { σ with net := { σ.net with packages := σ.idToPackage.enum } }

/-- Run the opaque reducer on the active net (`self.net.normal()`). -/
def normalC : CompM Unit :=
  fun σ => .ok () { σ with net := σ.net.normal }

/-- Pop the reduced package body back off the free ports
(`self.net.ports.pop_back().unwrap()`). -/
def popPort : CompM Tree :=
  fun σ =>
    match σ.net.ports.getLast? with
    | some tr => .ok tr { σ with net := { σ.net with ports := σ.net.ports.dropLast } }
    | none => .panicked unwrapMsg

/-- Record the finished definition's type (`self.id_to_ty.push(…)`). -/
def pushTy (ty : Ty) : CompM Unit :=
  fun σ => .ok () { σ with idToTy := σ.idToTy ++ [ty] }

/-- Record the finished definition's package body
(`self.id_to_package.push(…)`). -/
def pushPackage (t : Tree) : CompM Unit :=
  fun σ => .ok () { σ with idToPackage := σ.idToPackage ++ [t] }

/-- Results of the mutually recursive compiler entry points. -/
inductive Val where
  | unit
  | tt (t : TypedTree)
  | ttk (t : TypedTree) (k : VariableKind)
  | optTT (o : Option TypedTree)
  | capmap (m : IndexMap String (TypedTree × VariableKind))
  | collected (ns : List String) (ts : List Tree) (tys : List Ty) (ks : List VariableKind)
  | trees (ts : List Tree)

/-- The mutually recursive compiler entry points, as one sum type so the
whole recursion is structural in the fuel. -/
inductive Call where
  | global (name : String)
  | useVar (name : String)
  | instVar (name : String)
  | enterCaps (names : List String) (acc : IndexMap String (TypedTree × VariableKind))
  | castC (frm : TypedTree) (tgt : Ty)
  | expr (e : Expr)
  | proc (p : Process)
  | cmd (name : String) (ty : Ty) (c : Command)
  | matchCollect (entries : List (String × (TypedTree × VariableKind)))
      (subject : String) (ns : List String) (ts : List Tree)
      (tys : List Ty) (ks : List VariableKind)
  | matchBranches (subject : String) (mVars : List String) (mTys : List Ty)
      (mKinds : List VariableKind) (branches : List ((String × Process) × Ty))
      (acc : List Tree)

/-- Project a `Val` back to a typed tree. -/
def ofTT : Val → CompM TypedTree
  | .tt t => pure t
  | _ => panicC "internal: expected a typed tree"

/-- Project a `Val` back to a typed tree with its kind. -/
def ofTTK : Val → CompM (TypedTree × VariableKind)
  | .ttk t k => pure (t, k)
  | _ => panicC "internal: expected a typed tree with kind"

/-- Project a `Val` back to an optional typed tree. -/
def ofOptTT : Val → CompM (Option TypedTree)
  | .optTT o => pure o
  | _ => panicC "internal: expected an optional typed tree"

/-- Project a `Val` back to a captured-variables map. -/
def ofCapmap : Val → CompM (IndexMap String (TypedTree × VariableKind))
  | .capmap m => pure m
  | _ => panicC "internal: expected a capture map"

/-- Project a `Val` back to the collected multiplexing data. -/
def ofCollected : Val → CompM (List String × List Tree × List Ty × List VariableKind)
  | .collected ns ts tys ks => pure (ns, ts, tys, ks)
  | _ => panicC "internal: expected collected context"

/-- Project a `Val` back to a list of trees. -/
def ofTrees : Val → CompM (List Tree)
  | .trees ts => pure ts
  | _ => panicC "internal: expected trees"

/-- The fueled compiler interpreter.  Each `Call` arm is the body of the
corresponding `Compiler` method from `src/icombs/compiler.rs`, with every
mutually recursive call made at one unit less fuel; fuel exhaustion is the
`Res.fuelOut` outcome.  The two `with_captures` call sites are inlined
(capture collection, environment swap, body, swap back, scope-exit loop),
since the Rust method takes the body as a closure. -/
def interp (prog : Prog) : Nat → Call → CompM Val
  | 0, _ => fun _ => Res.fuelOut
  | n + 1, call =>
    match call with
    | .global name => do
      let σ ← getC
      match getIM σ.names name with
      | some id =>
        match σ.idToTy.get? id with
        | some ty => pure (Val.optTT (some ⟨Tree.Package id, ty⟩))
        | none => panicC unwrapMsg
      | none =>
        match getIM prog.definitions name with
        | none => pure (Val.optTT none)
        | some global => do
          let oldNet := σ.net
          let id := σ.idToPackage.length
          setC { σ with net := Net.empty, names := insertIM σ.names name id }
          let saved ← swapVars []
          let v ← interp prog n (.expr global)
          let t ← ofTT v
          let residual ← swapVars saved
          exitC residual
          pushPort t.tree
          snapshotPackages
          normalC
          let contents ← popPort
          pushTy t.ty
          pushPackage contents
          setNet oldNet
          pure (Val.optTT (some ⟨Tree.Package id, t.ty⟩))
    | .useVar name => do
      let σ ← getC
      match swapRemoveIM σ.vars name with
      | some ((tree, kind), vars') => do
        let _ ← swapVars vars'
        match kind with
        | .Linear => pure (Val.ttk tree .Linear)
        | kind => do
          let (w0, w1) ← create_wire
          let (v0, v1) ← create_wire
          link (Tree.d v0 w0) tree.tree
          insertVar name (⟨w1, tree.ty⟩, kind)
          pure (Val.ttk ⟨v1, tree.ty⟩ kind)
      | none => do
        let r1 ← interp prog n (.global name)
        let o1 ← ofOptTT r1
        match o1 with
        | some _ => do
          let r2 ← interp prog n (.global name)
          let o2 ← ofOptTT r2
          match o2 with
          | none => panicC unwrapMsg
          | some value => do
            insertVar name (value, .Replicable)
            pure (Val.ttk value .Replicable)
        | none => panicC ("unknown variable " ++ name)
    | .instVar name => do
      let v ← interp prog n (.useVar name)
      let (value, kind) ← ofTTK v
      if kind = VariableKind.Boxed then panicC "not yet implemented"
      else pure (Val.tt value)
    | .enterCaps names acc =>
      match names with
      | [] => pure (Val.capmap acc)
      | nm :: rest => do
        let v ← interp prog n (.useVar nm)
        let (t, kind) ← ofTTK v
        interp prog n (.enterCaps rest (insertIM acc nm (t, kind)))
    | .castC frm tgt =>
      match frm.ty, tgt with
      | Ty.Send from_fst from_snd, Ty.Send to_fst to_snd => do
        let (fst0, fst1) ← create_typed_wire from_fst
        let (snd0, snd1) ← create_typed_wire from_snd
        link frm.tree (Tree.c fst1.tree snd1.tree)
        let fv ← interp prog n (.castC fst0 to_fst)
        let fc ← ofTT fv
        let sv ← interp prog n (.castC snd0 to_snd)
        let sc ← ofTT sv
        pure (Val.tt ⟨Tree.c fc.tree sc.tree, Ty.Send to_fst to_snd⟩)
      | Ty.Receive from_fst from_snd, Ty.Receive to_fst to_snd => do
        let (fst0, fst1) ← create_typed_wire (dual from_fst)
        let (snd0, snd1) ← create_typed_wire from_snd
        link frm.tree (Tree.c fst1.tree snd1.tree)
        let fv ← interp prog n (.castC fst0 (dual to_fst))
        let fc ← ofTT fv
        let sv ← interp prog n (.castC snd0 to_snd)
        let sc ← ofTT sv
        pure (Val.tt ⟨Tree.c fc.tree sc.tree, Ty.Receive to_fst to_snd⟩)
      | Ty.Choice from_choices, Ty.Choice to_choices => do
        let (v0, v1) ← create_typed_wire (Ty.Choice to_choices)
        let cases ← cast_choice_cases to_choices to_choices.length from_choices
        link frm.tree (either_instance v1.tree cases)
        pure (Val.tt v0)
      | Ty.Break, Ty.Break => pure (Val.tt frm)
      | Ty.Continue, Ty.Continue => pure (Val.tt frm)
      | _, _ => panicC "not yet implemented: cast"
    | .expr e =>
      match e with
      | .Reference name ty => do
        let v ← interp prog n (.instVar name)
        let inner ← ofTT v
        interp prog n (.castC inner ty)
      | .Fork captures chanName typ proc => do
        let cv ← interp prog n (.enterCaps captures [])
        let acc ← ofCapmap cv
        let saved ← swapVars acc
        let (v0, v1) ← create_typed_wire typ
        bind_variable chanName v0
        let _ ← interp prog n (.proc proc)
        let residual ← swapVars saved
        exitC residual
        pure (Val.tt v1)
    | .proc p =>
      match p with
      | .Let key value rest => do
        let v ← interp prog n (.expr value)
        let value' ← ofTT v
        insertVar key (value', VariableKind.Linear)
        interp prog n (.proc rest)
      | .Do name ty cmd => interp prog n (.cmd name ty cmd)
      | .Unsupported => panicC "not yet implemented"
    | .cmd name ty c =>
      match c with
      | .Link e => do
        let av ← interp prog n (.expr e)
        let a ← ofTT av
        let bv ← interp prog n (.instVar name)
        let b ← ofTT bv
        link a.tree b.tree
        pure Val.unit
      | .SendType p => interp prog n (.proc p)
      | .ReceiveType p => interp prog n (.proc p)
      | .Send e p => do
        let av ← interp prog n (.instVar name)
        let a0 ← ofTT av
        let cv ← interp prog n (.castC a0 ty)
        let a ← ofTT cv
        match a.ty with
        | Ty.Receive arg_type ret_type => do
          let ev ← interp prog n (.expr e)
          let ex0 ← ofTT ev
          let xv ← interp prog n (.castC ex0 arg_type)
          let ex ← ofTT xv
          let (v0, v1) ← create_typed_wire ret_type
          bind_variable name v0
          link (Tree.c v1.tree ex.tree) a.tree
          interp prog n (.proc p)
        | _ => panicC unreachableMsg
      | .Receive target p => do
        let av ← interp prog n (.instVar name)
        let a0 ← ofTT av
        let cv ← interp prog n (.castC a0 ty)
        let a ← ofTT cv
        match a.ty with
        | Ty.Send arg_type ret_type => do
          let (v0, v1) ← create_typed_wire arg_type
          let (w0, w1) ← create_typed_wire ret_type
          bind_variable name w0
          bind_variable target v0
          link (Tree.c w1.tree v1.tree) a.tree
          interp prog n (.proc p)
        | _ => panicC unreachableMsg
      | .Choose chosen p => do
        let av ← interp prog n (.instVar name)
        let a0 ← ofTT av
        let cv ← interp prog n (.castC a0 ty)
        let a ← ofTT cv
        match a.ty with
        | Ty.Choice branches =>
          match getIM branches chosen with
          | none => panicC unreachableMsg
          | some branch_type => do
            let (v0, v1) ← create_typed_wire branch_type
            match choose_branch_index branches chosen with
            | none => panicC unwrapMsg
            | some branch_index => do
              let building_tree ← choice_instance v1.tree branch_index branches.length
              link building_tree a.tree
              bind_variable name v0
              interp prog n (.proc p)
        | _ => panicC unreachableMsg
      | .Match names procs => do
        let ov ← interp prog n (.instVar name)
        let old_tree ← ofTT ov
        let taken ← takeVars
        let col ← interp prog n (.matchCollect taken name [] [] [] [])
        let (mVars, mTrees, mTys, mKinds) ← ofCollected col
        let _context_in := multiplex_trees mTrees
        match ty with
        | Ty.Either required_branches => do
          let bv ← interp prog n
            (.matchBranches name mVars mTys mKinds
              ((names.zip procs).zip (valuesIM required_branches)) [])
          let branches ← ofTrees bv
          link old_tree.tree (List.foldr Tree.c Tree.e branches)
          pure Val.unit
        | _ => panicC unreachableMsg
      | .Break => do
        let av ← interp prog n (.instVar name)
        let a ← ofTT av
        link a.tree Tree.e
        pure Val.unit
      | .Continue p => do
        let av ← interp prog n (.instVar name)
        let a ← ofTT av
        link a.tree Tree.e
        interp prog n (.proc p)
      | .Begin => panicC unreachableMsg
      | .Loop => panicC unreachableMsg
    | .matchCollect entries subject ns ts tys ks =>
      match entries with
      | [] => pure (Val.collected ns ts tys ks)
      | (k, _v) :: rest => do
        let vv ← interp prog n (.useVar subject)
        let (v, kind) ← ofTTK vv
        interp prog n
          (.matchCollect rest subject (ns ++ [k]) (ts ++ [v.tree])
            (tys ++ [v.ty]) (ks ++ [kind]))
    | .matchBranches subject mVars mTys mKinds branches acc =>
      match branches with
      | [] => pure (Val.trees acc)
      | ((_choice_here, process), branch) :: rest => do
        let (w0, w1) ← create_typed_wire branch
        bind_variable subject w0
        let trees ← match_branch_rewire (mVars.zip (mTys.zip mKinds))
        let context_out := multiplex_trees trees
        let _ ← interp prog n (.proc process)
        interp prog n
          (.matchBranches subject mVars mTys mKinds rest
            (acc ++ [Tree.c context_out w1.tree]))

/-- `Compiler::compile_global`, at the given fuel. -/
def compile_global (prog : Prog) (fuel : Nat) (name : String) :
    CompM (Option TypedTree) := do
  let v ← interp prog fuel (.global name)
  ofOptTT v

/-- `Compiler::use_variable`, at the given fuel. -/
def use_variable (prog : Prog) (fuel : Nat) (name : String) :
    CompM (TypedTree × VariableKind) := do
  let v ← interp prog fuel (.useVar name)
  ofTTK v

/-- `Compiler::instantiate_variable`, at the given fuel. -/
def instantiate_variable (prog : Prog) (fuel : Nat) (name : String) :
    CompM TypedTree := do
  let v ← interp prog fuel (.instVar name)
  ofTT v

/-- `Compiler::cast`, at the given fuel. -/
def cast (prog : Prog) (fuel : Nat) (frm : TypedTree) (tgt : Ty) :
    CompM TypedTree := do
  let v ← interp prog fuel (.castC frm tgt)
  ofTT v

/-- `Compiler::compile_expression`, at the given fuel. -/
def compile_expression (prog : Prog) (fuel : Nat) (e : Expr) : CompM TypedTree := do
  let v ← interp prog fuel (.expr e)
  ofTT v

/-- `Compiler::compile_process`, at the given fuel. -/
def compile_process (prog : Prog) (fuel : Nat) (p : Process) : CompM Unit := do
  let _ ← interp prog fuel (.proc p)
  pure ()

/-- The state a `Compiler` starts from in `compile_file`: empty net, empty
environment, no globals compiled. -/
def initState : CState :=
  { net := Net.empty, vars := [], names := [], idToTy := [], idToPackage := [] }


/-- `Compiler::compile_command`, at the given fuel. -/
def compile_command (prog : Prog) (fuel : Nat) (name : String) (ty : Ty)
    (c : Command) : CompM Unit := do
  let _ ← interp prog fuel (.cmd name ty c)
  pure ()

/-- A program with no definitions at all. -/
def emptyProg : Prog := ⟨[]⟩

/-- Types as built by the parser's type grammar (`Type<Loc, Name>` seen
from `par/parser.rs`), keeping the source span every constructor receives;
spans are represented by an abstract identifier.  Only the constructors the
send/receive folds build or pass through are needed. -/
inductive PTy where
  | Send (span : Nat) (a b : PTy)
  | Receive (span : Nat) (a b : PTy)
  | Break (span : Nat)
  | Continue (span : Nat)
  deriving DecidableEq, Repr

/-- The argument fold of `typ_send`:
`args.into_iter().rev().fold(then, |arg, then| Type::Send(span, arg, then))`.
Rust's `Iterator::fold` passes the accumulator as the closure's first
parameter, so the binder named `arg` receives the accumulator and the
binder named `then` receives the current argument type. -/
def typ_send_fold (span : Nat) (args : List PTy) (thenT : PTy) : PTy :=
  List.foldl (fun arg thenA => PTy.Send span arg thenA) thenT args.reverse

/-- The argument fold of `typ_receive`, identical to `typ_send_fold` with
`Type::Receive`. -/
def typ_receive_fold (span : Nat) (args : List PTy) (thenT : PTy) : PTy :=
  List.foldl (fun arg thenA => PTy.Receive span arg thenA) thenT args.reverse

/-- The argument fold of `typ_branch_receive`:
`args.into_iter().rev().fold(then, |acc, arg| Type::Receive(span, arg, acc))`. -/
def typ_branch_receive_fold (span : Nat) (args : List PTy) (thenT : PTy) : PTy :=
  List.foldl (fun acc arg => PTy.Receive span arg acc) thenT args.reverse

/-- The right-nested tree the spec describes for `(a1, …, an) T`:
`Send(a1, Send(a2, … Send(an, T)))`, every node carrying the same span.
This definition follows the spec's words, for comparison with the folds
above. -/
def spec_send_nest (span : Nat) (args : List PTy) (thenT : PTy) : PTy :=
  List.foldr (fun arg acc => PTy.Send span arg acc) thenT args

/-- The right-nested tree the spec describes for `[a1, …, an] T`,
following the spec's words. -/
def spec_receive_nest (span : Nat) (args : List PTy) (thenT : PTy) : PTy :=
  List.foldr (fun arg acc => PTy.Receive span arg acc) thenT args

/-- The branch-map fold shared by `typ_either`, `typ_choice`,
`cons_either` and `apply_either`: starting from an empty `IndexMap`,
insert each parsed `(name, payload)` pair in source order. -/
def branches_fold {β : Type} (l : List (String × β)) : IndexMap String β :=
  l.foldl (fun branches p => insertIM branches p.1 p.2) []

/-- A top-level item as folded by the `program` parser: a `type`
definition, a `dec` declaration, or a `def` definition with its optional
type annotation.  Payload types are abstract, as the `program` fold never
inspects them. -/
inductive PItem (T E : Type) where
  | typeDef (name : String) (params : List String) (t : T)
  | dec (name : String) (t : T)
  | defn (name : String) (annot : Option T) (e : E)

/-- The `Program` accumulated by the `program` parser. -/
structure PProgram (T E : Type) where
  type_defs : IndexMap String (List String × T)
  declarations : IndexMap String (Option T)
  definitions : IndexMap String E

/-- `Program::default()`. -/
def emptyPProgram (T E : Type) : PProgram T E := ⟨[], [], []⟩

/-- One step of the `program` parser's item fold (`repeat(0‥, …).fold`):
a `type` item inserts into `type_defs`, a `dec` item inserts
`Some(typ)` into `declarations`, and a `def` item inserts its annotation
into `declarations` and its expression into `definitions`. -/
def programStep {T E : Type} (acc : PProgram T E) : PItem T E → PProgram T E
  | .typeDef name params t =>
    { acc with type_defs := insertIM acc.type_defs name (params, t) }
  | .dec name t =>
    { acc with declarations := insertIM acc.declarations name (some t) }
  | .defn name annot e =>
    { acc with
      declarations := insertIM acc.declarations name annot
      definitions := insertIM acc.definitions name e }

/-- The `program` parser's fold over the parsed items, in source order. -/
def programFold {T E : Type} (items : List (PItem T E)) : PProgram T E :=
  items.foldl programStep (emptyPProgram T E)

/-- Whether a top-level item writes to the `declarations` or
`definitions` entry of the given name. -/
def writesName {T E : Type} (n : String) : PItem T E → Prop
  | .typeDef _ _ _ => False
  | .dec m _ => m = n
  | .defn m _ _ => m = n

/-- Failing input for the self-reference claim: a single definition whose
body links its channel to a reference to the definition itself. -/
def prog1 : Prog :=
  ⟨[("f", Expr.Fork [] "a" Ty.Break
      (Process.Do "a" Ty.Break (Command.Link (Expr.Reference "f" Ty.Continue))))]⟩

/-- Failing input for the `Match` context-multiplexing claim: a `Match`
on channel `a` with exactly one other live variable `k` in scope. -/
def match_command : Command :=
  Command.Match ["l"] [Process.Do "a" Ty.Break Command.Break]

/-- The compiler state in which `match_command` is lowered: the matched
channel `a` and one ambient live variable `k`, both `Linear`. -/
def match_state : CState :=
  { net := { nextWire := 2, links := [], ports := [], packages := [] }
    vars := [("a", (⟨Tree.Wire 0, Ty.Break⟩, VariableKind.Linear)),
             ("k", (⟨Tree.Wire 1, Ty.Break⟩, VariableKind.Linear))]
    names := []
    idToTy := []
    idToPackage := [] }

/-- Witness program for package memoization: one definition that
compiles successfully. -/
def progW : Prog :=
  ⟨[("g", Expr.Fork [] "a" Ty.Break (Process.Do "a" Ty.Break Command.Break))]⟩

/-- The state after `compile_global progW … "g"` succeeds from
`initState`. -/
def progW_end : CState :=
  { net := Net.empty
    vars := []
    names := [("g", 0)]
    idToTy := [Ty.Continue]
    idToPackage := [Tree.Wire 0] }

/-- The declared branch map used to separate declared insertion order
from sorted order: `b` is declared first, `a` second. -/
def choose_branches : List (String × Ty) := [("b", Ty.Break), ("a", Ty.Break)]

/-- A compiler state for the `Choose` counterexample: channel `x`
carries the `choose_branches` choice type and the next wire id is 1. -/
def choose_state : CState :=
  { net := { nextWire := 1, links := [], ports := [], packages := [] }
    vars := [("x", (⟨Tree.Wire 0, Ty.Choice choose_branches⟩, VariableKind.Linear))]
    names := []
    idToTy := []
    idToPackage := [] }

/-- A typed tree whose type is a `Send` of two `Break`s, for the cast
identity counterexample. -/
def cast_from : TypedTree := ⟨Tree.e, Ty.Send Ty.Break Ty.Break⟩

/-- Witness state for the duplicate-`Let` claim: the name `x` is already
bound (and `Linear`). -/
def let_state : CState :=
  { net := Net.empty
    vars := [("x", (⟨Tree.e, Ty.Break⟩, VariableKind.Linear))]
    names := []
    idToTy := []
    idToPackage := [] }

/-- Witness value expression for the duplicate-`Let` claim: a fork that
immediately breaks its channel. -/
def let_value : Expr :=
  Expr.Fork [] "a" Ty.Break (Process.Do "a" Ty.Break Command.Break)

/-- The state after `compile_expression … let_value let_state` succeeds. -/
def let_value_end : CState :=
  { net := { nextWire := 1, links := [(Tree.Wire 0, Tree.e)], ports := [], packages := [] }
    vars := [("x", (⟨Tree.e, Ty.Break⟩, VariableKind.Linear))]
    names := []
    idToTy := []
    idToPackage := [] }

/-- The state after the cast identity counterexample run. -/
def cast_end : CState :=
  { net := { nextWire := 2
             links := [(Tree.e, Tree.c (Tree.Wire 0) (Tree.Wire 1))]
             ports := []
             packages := [] }
    vars := []
    names := []
    idToTy := []
    idToPackage := [] }


/-! Basic facts about the computation monad and the `IndexMap` model. -/

theorem bind_run {α β : Type} (x : CompM α) (f : α → CompM β) (σ : CState) :
    (x >>= f) σ =
      match x σ with
      | .fuelOut => .fuelOut
      | .panicked m => .panicked m
      | .ok a σ' => f a σ' := rfl

theorem pure_run {α : Type} (a : α) (σ : CState) :
    (pure a : CompM α) σ = Res.ok a σ := rfl

theorem bind_eq_ok {α β : Type} {x : CompM α} {f : α → CompM β} {σ σ' : CState}
    {v : β} :
    (x >>= f) σ = Res.ok v σ' ↔
      ∃ a σ₁, x σ = Res.ok a σ₁ ∧ f a σ₁ = Res.ok v σ' := by
  constructor
  · intro h
    rw [bind_run] at h
    cases hx : x σ with
    | fuelOut => rw [hx] at h; exact absurd h (by simp)
    | panicked m => rw [hx] at h; exact absurd h (by simp)
    | ok a σ₁ => rw [hx] at h; exact ⟨a, σ₁, rfl, h⟩
  · rintro ⟨a, σ₁, hx, hf⟩
    rw [bind_run, hx]
    exact hf

theorem getIM_insertIM_self {α β : Type} [DecidableEq α]
    (m : IndexMap α β) (k : α) (v : β) : getIM (insertIM m k v) k = some v := by
  induction m with
  | nil => simp [insertIM, getIM]
  | cons e rest ih =>
    obtain ⟨k', v'⟩ := e
    by_cases h : k' = k
    · subst h; simp [insertIM, getIM]
    · simp [insertIM, getIM, h, ih]

theorem getIM_insertIM_ne {α β : Type} [DecidableEq α]
    (m : IndexMap α β) (k k' : α) (v : β) (hne : k' ≠ k) :
    getIM (insertIM m k v) k' = getIM m k' := by
  induction m with
  | nil => simp [insertIM, getIM, Ne.symm hne]
  | cons e rest ih =>
    obtain ⟨k₀, v₀⟩ := e
    by_cases h : k₀ = k
    · subst h; simp [insertIM, getIM, Ne.symm hne]
    · simp only [insertIM, if_neg h, getIM]
      by_cases h' : k₀ = k'
      · simp [h']
      · simp [h', ih]

theorem getIM_append {α β : Type} [DecidableEq α]
    (m m' : IndexMap α β) (k : α) :
    getIM (m ++ m') k =
      match getIM m k with
      | some v => some v
      | none => getIM m' k := by
  induction m with
  | nil => simp [getIM]
  | cons e rest ih =>
    obtain ⟨k₀, v₀⟩ := e
    by_cases h : k₀ = k
    · simp [getIM, h]
    · simp [getIM, h, ih]

theorem getIM_eq_none_of_not_mem {α β : Type} [DecidableEq α]
    (m : IndexMap α β) (k : α) (h : k ∉ m.map Prod.fst) : getIM m k = none := by
  induction m with
  | nil => simp [getIM]
  | cons e rest ih =>
    obtain ⟨k₀, v₀⟩ := e
    simp only [List.map_cons, List.mem_cons] at h
    push_neg at h
    obtain ⟨h1, h2⟩ := h
    simp [getIM, Ne.symm h1, ih h2]

theorem insertIM_eq_append_of_getIM_none {α β : Type} [DecidableEq α]
    (m : IndexMap α β) (k : α) (v : β) (h : getIM m k = none) :
    insertIM m k v = m ++ [(k, v)] := by
  induction m with
  | nil => simp [insertIM]
  | cons e rest ih =>
    obtain ⟨k₀, v₀⟩ := e
    simp only [getIM] at h
    by_cases hk : k₀ = k
    · simp [hk] at h
    · simp only [if_neg hk] at h
      simp [insertIM, hk, ih h]

theorem getIndexOfIM_get {α β : Type} [DecidableEq α]
    (m : IndexMap α β) (k : α) (i : Nat) (h : getIndexOfIM m k = some i) :
    ∃ v, m.get? i = some (k, v) := by
  induction m generalizing i with
  | nil => simp [getIndexOfIM] at h
  | cons e rest ih =>
    obtain ⟨k₀, v₀⟩ := e
    by_cases hk : k₀ = k
    · subst hk
      simp [getIndexOfIM] at h
      subst h
      exact ⟨v₀, rfl⟩
    · simp only [getIndexOfIM, if_neg hk] at h
      cases hr : getIndexOfIM rest k with
      | none => simp [hr] at h
      | some j =>
        simp only [hr, Option.map_some', Option.some.injEq] at h
        subst h
        obtain ⟨v, hv⟩ := ih j hr
        exact ⟨v, by simpa using hv⟩

/-! The `with_captures` scope-exit loop. -/

theorem with_captures_exit_no_linear
    (residual : List (String × (TypedTree × VariableKind))) (net : Net)
    (h : ∀ e ∈ residual, e.2.2 ≠ VariableKind.Linear) :
    with_captures_exit residual net =
      Except.ok
        { net with links := net.links ++ residual.map (fun e => (e.2.1.tree, Tree.e)) } := by
  induction residual generalizing net with
  | nil => simp [with_captures_exit]
  | cons e rest ih =>
    obtain ⟨name, value, kind⟩ := e
    have hk : kind ≠ VariableKind.Linear := h _ (List.mem_cons_self _ _)
    simp only [with_captures_exit, if_neg hk]
    rw [ih _ (fun e he => h e (List.mem_cons_of_mem _ he))]
    simp

theorem with_captures_exit_linear
    (residual : List (String × (TypedTree × VariableKind))) (net : Net)
    (h : ∃ e ∈ residual, e.2.2 = VariableKind.Linear) :
    ∃ nm entry, (nm, entry) ∈ residual ∧ entry.2 = VariableKind.Linear ∧
      with_captures_exit residual net =
        Except.error ("some variables were not closed: " ++ nm) := by
  induction residual generalizing net with
  | nil => simp at h
  | cons e rest ih =>
    obtain ⟨name, value, kind⟩ := e
    by_cases hk : kind = VariableKind.Linear
    · exact ⟨name, (value, kind), List.mem_cons_self _ _, hk,
        by simp [with_captures_exit, if_pos hk]⟩
    · have h' : ∃ e ∈ rest, e.2.2 = VariableKind.Linear := by
        obtain ⟨e', he', hl⟩ := h
        rcases List.mem_cons.mp he' with heq | hmem
        · subst heq
          exact absurd hl hk
        · exact ⟨e', hmem, hl⟩
      obtain ⟨nm, entry, hmem, hl, heq⟩ :=
        ih { net with links := net.links ++ [(value.tree, Tree.e)] } h'
      exact ⟨nm, entry, List.mem_cons_of_mem _ hmem, hl,
        by simp [with_captures_exit, if_neg hk, heq]⟩

/-! Claim theorems. -/

/-- C7: at every scope exit performed by `with_captures`, each residual
variable is treated by its kind: when no residual is `Linear`, every
residual's handle is linked to the erasure node `E` (in order) and the
exit succeeds; when some residual is `Linear`, the exit is the fatal
`"some variables were not closed"` error naming a `Linear` residual.  No
other fate is possible. -/
theorem c7_scope_exit_by_kind
    (residual : List (String × (TypedTree × VariableKind))) (net : Net) :
    ((∀ e ∈ residual, e.2.2 ≠ VariableKind.Linear) →
      with_captures_exit residual net =
        Except.ok
          { net with
            links := net.links ++ residual.map (fun e => (e.2.1.tree, Tree.e)) }) ∧
    ((∃ e ∈ residual, e.2.2 = VariableKind.Linear) →
      ∃ nm entry, (nm, entry) ∈ residual ∧ entry.2 = VariableKind.Linear ∧
        with_captures_exit residual net =
          Except.error ("some variables were not closed: " ++ nm)) :=
  ⟨with_captures_exit_no_linear residual net,
   with_captures_exit_linear residual net⟩

/-- Witness for C7 at concrete inputs: a single `Replicable` residual is
erased, a single `Linear` residual raises the fatal error. -/
theorem c7_scope_exit_witness :
    with_captures_exit [("r", (⟨Tree.Wire 0, Ty.Break⟩, VariableKind.Replicable))]
        Net.empty =
      Except.ok
        { Net.empty with links := [(Tree.Wire 0, Tree.e)] } ∧
    (∃ nm entry,
      (nm, entry) ∈
        [("l", ((⟨Tree.Wire 0, Ty.Break⟩ : TypedTree), VariableKind.Linear))] ∧
      entry.2 = VariableKind.Linear ∧
      with_captures_exit [("l", (⟨Tree.Wire 0, Ty.Break⟩, VariableKind.Linear))]
          Net.empty =
        Except.error ("some variables were not closed: " ++ nm)) := by
  constructor
  · have h := (c7_scope_exit_by_kind
      [("r", (⟨Tree.Wire 0, Ty.Break⟩, VariableKind.Replicable))] Net.empty).1
      (by intro e he; rw [List.mem_singleton] at he; subst he; simp)
    simpa [Net.empty] using h
  · exact (c7_scope_exit_by_kind
      [("l", (⟨Tree.Wire 0, Ty.Break⟩, VariableKind.Linear))] Net.empty).2
      ⟨("l", (⟨Tree.Wire 0, Ty.Break⟩, VariableKind.Linear)),
        List.mem_singleton_self _, rfl⟩

theorem multiplex_trees_go_fuel :
    ∀ (fuel fuel' : Nat) (ts : List Tree), ts.length ≤ fuel + 1 →
      ts.length ≤ fuel' + 1 →
      multiplex_trees_go fuel ts = multiplex_trees_go fuel' ts := by
  intro fuel
  induction fuel with
  | zero =>
    intro fuel' ts h _
    match ts, h with
    | [], _ => cases fuel' <;> rfl
    | [t], _ => cases fuel' <;> rfl
  | succ n ih =>
    intro fuel' ts h h'
    match ts, h, h' with
    | [], _, _ => cases fuel' <;> rfl
    | [t], _, _ => cases fuel' <;> rfl
    | a :: b :: rest, h, h' =>
      match fuel', h' with
      | m + 1, h' =>
        simp only [multiplex_trees_go]
        have hlen : (a :: b :: rest).length = rest.length + 2 := by simp
        congr 1
        · apply ih
          · simp only [List.length_take, List.length_cons] at *
            omega
          · simp only [List.length_take, List.length_cons] at *
            omega
        · apply ih
          · simp only [List.length_drop, List.length_cons] at *
            omega
          · simp only [List.length_drop, List.length_cons] at *
            omega

/-- C9: `multiplex_trees` maps the empty list to `E`, a singleton to its
element, and otherwise splits the list at its midpoint and combines the
recursively multiplexed halves with a `C` node; the two halves differ in
length by at most one, so the combination is balanced. -/
theorem c9_multiplex_trees_shape :
    multiplex_trees [] = Tree.e ∧
    (∀ t : Tree, multiplex_trees [t] = t) ∧
    (∀ ts : List Tree, 2 ≤ ts.length →
      multiplex_trees ts =
        Tree.c (multiplex_trees (ts.take (ts.length / 2)))
          (multiplex_trees (ts.drop (ts.length / 2))) ∧
      (ts.take (ts.length / 2)).length ≤ (ts.drop (ts.length / 2)).length ∧
      (ts.drop (ts.length / 2)).length ≤ (ts.take (ts.length / 2)).length + 1) := by
  refine ⟨rfl, fun t => rfl, fun ts hlen => ?_⟩
  match ts, hlen with
  | a :: b :: rest, _ =>
    refine ⟨?_, ?_, ?_⟩
    · show multiplex_trees_go (rest.length + 2) (a :: b :: rest) = _
      simp only [multiplex_trees_go]
      unfold multiplex_trees
      congr 1
      · apply multiplex_trees_go_fuel
        · simp only [List.length_take, List.length_cons]
          omega
        · simp only [List.length_take, List.length_cons]
          omega
      · apply multiplex_trees_go_fuel
        · simp only [List.length_drop, List.length_cons]
          omega
        · simp only [List.length_drop, List.length_cons]
          omega
    · simp only [List.length_take, List.length_drop, List.length_cons]
      omega
    · simp only [List.length_take, List.length_drop, List.length_cons]
      omega

/-- Witness for C9 at a concrete input: three erasure nodes multiplex to
`C(E, C(E, E))`, splitting one-and-two. -/
theorem c9_multiplex_trees_witness :
    multiplex_trees [Tree.e, Tree.e, Tree.e] =
      Tree.c (multiplex_trees [Tree.e]) (multiplex_trees [Tree.e, Tree.e]) := by
  have h := (c9_multiplex_trees_shape.2.2 [Tree.e, Tree.e, Tree.e] (by decide)).1
  simpa using h

/-- C3: the `typ_send` / `typ_receive` argument folds, evaluated at the
failing input `(!, ?) !` (arguments `Break`, `Continue`, continuation
`Break`).  Rust's `fold` passes the accumulator first, so the closure
`|arg, then| Send(arg, then)` nests the accumulated continuation into the
first slot: the result is `Send(Send(T, a2), a1)`, not the right-nested
`Send(a1, Send(a2, T))` the spec states.  `typ_branch_receive`, whose
closure is `|acc, arg| Receive(arg, acc)`, does produce the right-nested
tree for every argument list. -/
theorem c3_send_receive_fold_eval :
    typ_send_fold 0 [PTy.Break 0, PTy.Continue 0] (PTy.Break 0) =
      PTy.Send 0 (PTy.Send 0 (PTy.Break 0) (PTy.Continue 0)) (PTy.Break 0) ∧
    spec_send_nest 0 [PTy.Break 0, PTy.Continue 0] (PTy.Break 0) =
      PTy.Send 0 (PTy.Break 0) (PTy.Send 0 (PTy.Continue 0) (PTy.Break 0)) ∧
    typ_send_fold 0 [PTy.Break 0, PTy.Continue 0] (PTy.Break 0) ≠
      spec_send_nest 0 [PTy.Break 0, PTy.Continue 0] (PTy.Break 0) ∧
    typ_receive_fold 0 [PTy.Break 0, PTy.Continue 0] (PTy.Break 0) =
      PTy.Receive 0 (PTy.Receive 0 (PTy.Break 0) (PTy.Continue 0)) (PTy.Break 0) ∧
    typ_receive_fold 0 [PTy.Break 0, PTy.Continue 0] (PTy.Break 0) ≠
      spec_receive_nest 0 [PTy.Break 0, PTy.Continue 0] (PTy.Break 0) ∧
    (∀ (span : Nat) (args : List PTy) (thenT : PTy),
      typ_branch_receive_fold span args thenT = spec_receive_nest span args thenT) := by
  refine ⟨by decide, by decide, by decide, by decide, by decide, ?_⟩
  intro span args thenT
  simp [typ_branch_receive_fold, spec_receive_nest, List.foldl_reverse]

/-- C1: compiling the self-referencing definition `prog1` panics with a
failed `unwrap`.  `compile_global` pre-registers `f ↦ 0` before compiling
the body, so the inner `compile_global("f")` for the self-reference takes
the memoized branch and does not recurse — but that branch looks the
pre-registered id up in `id_to_ty`, which is pushed only after the body
finishes, so the `unwrap` of `id_to_ty.get(0)` panics instead of
returning the `Package` tree. -/
theorem c1_self_reference_unwrap_panic :
    compile_global prog1 32 "f" initState = Res.panicked unwrapMsg := rfl

/-- C2: lowering a `Match` whose ambient context holds the live variable
`k` panics with `"unknown variable a"`: the context-collection loop calls
`use_variable` on the matched channel's name `a` — not on the ambient
variable `k` being iterated — after the environment has been emptied by
`mem::take`, so the lookup falls through to global resolution and
panics. -/
theorem c2_match_collects_subject_panic :
    compile_command emptyProg 12 "a" (Ty.Either [("l", Ty.Break)])
      match_command match_state = Res.panicked "unknown variable a" := rfl

/-- C8 (amended): `cast(x, x.ty)` returns `x` unchanged, with the net
untouched, when `x.ty` is `Break` or `Continue`; for `Send`, `Receive`
and `Choice` types the cast instead eta-expands through fresh wires (see
the counterexample). -/
theorem c8_cast_identity_break_continue :
    ∀ (prog : Prog) (fuel : Nat) (x : TypedTree) (σ : CState),
      x.ty = Ty.Break ∨ x.ty = Ty.Continue →
      cast prog (fuel + 1) x x.ty σ = Res.ok x σ := by
  intro prog fuel x σ h
  obtain ⟨tr, ty⟩ := x
  rcases h with h | h <;> (simp only at h; subst h; rfl)

/-- Witness for C8 at a concrete input: casting an erasure node of type
`Break` to `Break` is the identity. -/
theorem c8_cast_identity_witness :
    cast emptyProg 1 ⟨Tree.e, Ty.Break⟩ Ty.Break initState =
      Res.ok ⟨Tree.e, Ty.Break⟩ initState :=
  c8_cast_identity_break_continue emptyProg 0 ⟨Tree.e, Ty.Break⟩ initState (Or.inl rfl)

/-- Counterexample to C8 as stated: `cast_from` has type
`Send(Break, Break)`, whose children satisfy the identity law, yet
casting it to its own type returns a different tree (a `C` of two fresh
wires) and adds a link to the net. -/
theorem c8_cast_identity_counterexample :
    cast emptyProg 9 cast_from (Ty.Send Ty.Break Ty.Break) initState =
      Res.ok ⟨Tree.c (Tree.Wire 0) (Tree.Wire 1), Ty.Send Ty.Break Ty.Break⟩ cast_end ∧
    cast_from.ty = Ty.Send Ty.Break Ty.Break ∧
    Tree.c (Tree.Wire 0) (Tree.Wire 1) ≠ cast_from.tree ∧
    cast_end.net ≠ initState.net := by
  exact ⟨rfl, rfl, by decide, by decide⟩

theorem compile_expression_ok_interp {prog : Prog} {n : Nat} {e : Expr}
    {σ σ₁ : CState} {t : TypedTree}
    (h : compile_expression prog n e σ = Res.ok t σ₁) :
    interp prog n (.expr e) σ = Res.ok (Val.tt t) σ₁ := by
  unfold compile_expression at h
  rw [bind_eq_ok] at h
  obtain ⟨v, σ', hx, hf⟩ := h
  cases v with
  | tt t' =>
    simp only [ofTT, pure_run, Res.ok.injEq] at hf
    obtain ⟨h1, h2⟩ := hf
    subst h1
    subst h2
    exact hx
  | unit => simp [ofTT, panicC] at hf
  | ttk t k => simp [ofTT, panicC] at hf
  | optTT o => simp [ofTT, panicC] at hf
  | capmap m => simp [ofTT, panicC] at hf
  | collected a b c d => simp [ofTT, panicC] at hf
  | trees ts => simp [ofTT, panicC] at hf

/-- C10: the `Let` arm of `compile_process` inserts its binding directly
into the variable map — silently replacing any existing binding for the
name instead of asserting — whereas `bind_variable` is a fatal assertion
when a prior binding exists; and `insert` on the variable map replaces
the existing entry. -/
theorem c10_let_shadows_without_assert :
    (∀ (prog : Prog) (n : Nat) (key : String) (value : Expr) (rest : Process)
        (σ σ₁ : CState) (t : TypedTree),
      compile_expression prog n value σ = Res.ok t σ₁ →
      compile_process prog (n + 1) (Process.Let key value rest) σ =
        compile_process prog n rest
          { σ₁ with vars := insertIM σ₁.vars key (t, VariableKind.Linear) }) ∧
    (∀ (σ : CState) (key : String) (e₀ : TypedTree × VariableKind) (t : TypedTree),
      getIM σ.vars key = some e₀ →
      bind_variable key t σ =
        Res.panicked "assertion failed: bind_variable: variable already bound") ∧
    (∀ (m : IndexMap String (TypedTree × VariableKind)) (key : String)
        (e : TypedTree × VariableKind),
      getIM (insertIM m key e) key = some e) := by
  refine ⟨?_, ?_, ?_⟩
  · intro prog n key value rest σ σ₁ t h
    have h' := compile_expression_ok_interp h
    unfold compile_process
    simp only [interp, bind_run, h', ofTT, pure_run, insertVar]
  · intro σ key e₀ t h
    simp [bind_variable, h]
  · intro m key e
    exact getIM_insertIM_self m key e

/-- Witness for C10 at concrete inputs: compiling `let_value` from
`let_state` (where `x` is already bound and `Linear`) succeeds, the `Let`
arm replaces `x`'s binding without panicking, and `bind_variable` on the
same state is the fatal assertion. -/
theorem c10_let_shadows_witness :
    compile_expression emptyProg 8 let_value let_state =
      Res.ok ⟨Tree.Wire 0, Ty.Continue⟩ let_value_end ∧
    compile_process emptyProg 9 (Process.Let "x" let_value Process.Unsupported)
        let_state =
      compile_process emptyProg 8 Process.Unsupported
        { let_value_end with
          vars := insertIM let_value_end.vars "x"
            (⟨Tree.Wire 0, Ty.Continue⟩, VariableKind.Linear) } ∧
    bind_variable "x" ⟨Tree.e, Ty.Continue⟩ let_state =
      Res.panicked "assertion failed: bind_variable: variable already bound" := by
  refine ⟨rfl, ?_, ?_⟩
  · exact c10_let_shadows_without_assert.1 emptyProg 8 "x" let_value
      Process.Unsupported let_state let_value_end ⟨Tree.Wire 0, Ty.Continue⟩ rfl
  · exact c10_let_shadows_without_assert.2.1 let_state "x"
      (⟨Tree.e, Ty.Break⟩, VariableKind.Linear) ⟨Tree.e, Ty.Continue⟩ rfl

theorem foldl_programStep_preserves {T E : Type} (its : List (PItem T E))
    (n : String) (h : ∀ it ∈ its, ¬ writesName n it) (acc : PProgram T E) :
    getIM (List.foldl programStep acc its).definitions n = getIM acc.definitions n ∧
    getIM (List.foldl programStep acc its).declarations n = getIM acc.declarations n := by
  induction its generalizing acc with
  | nil => exact ⟨rfl, rfl⟩
  | cons it rest ih =>
    rw [List.foldl_cons]
    have hrest := ih (fun i hi => h i (List.mem_cons_of_mem _ hi)) (programStep acc it)
    have hit := h it (List.mem_cons_self _ _)
    refine ⟨hrest.1.trans ?_, hrest.2.trans ?_⟩ <;> cases it with
    | typeDef m params t => rfl
    | dec m t =>
      first
      | rfl
      | exact getIM_insertIM_ne _ m n _ (fun hh => hit hh.symm)
    | defn m annot e => exact getIM_insertIM_ne _ m n _ (fun hh => hit hh.symm)

/-- C5: the `program` parser's item fold accepts duplicate `def` items
for the same name without error: the later item overwrites the earlier
one, so both the `definitions` entry and the `declarations` entry for the
name hold the later item's expression and annotation. -/
theorem c5_duplicate_def_overwrites :
    ∀ {T E : Type} (pre mid post : List (PItem T E)) (n : String)
      (a₁ a₂ : Option T) (e₁ e₂ : E),
      (∀ it ∈ post, ¬ writesName n it) →
      getIM (programFold
          (pre ++ PItem.defn n a₁ e₁ :: (mid ++ PItem.defn n a₂ e₂ :: post))).definitions n
        = some e₂ ∧
      getIM (programFold
          (pre ++ PItem.defn n a₁ e₁ :: (mid ++ PItem.defn n a₂ e₂ :: post))).declarations n
        = some a₂ := by
  intro T E pre mid post n a₁ a₂ e₁ e₂ hpost
  unfold programFold
  rw [List.foldl_append, List.foldl_cons, List.foldl_append, List.foldl_cons]
  have hpres := foldl_programStep_preserves post n hpost
    (programStep
      (List.foldl programStep
        (programStep (List.foldl programStep (emptyPProgram T E) pre)
          (PItem.defn n a₁ e₁)) mid)
      (PItem.defn n a₂ e₂))
  refine ⟨hpres.1.trans ?_, hpres.2.trans ?_⟩
  · exact getIM_insertIM_self _ n e₂
  · exact getIM_insertIM_self _ n a₂

/-- Witness for C5 at a concrete input: two `def x` items in a row; the
program maps hold the second item's expression `8` and annotation
`some 2`. -/
theorem c5_duplicate_def_witness :
    getIM (programFold
        [PItem.defn "x" (some 1) (7 : Nat), PItem.defn "x" (some 2) 8]).definitions "x"
      = some 8 ∧
    getIM (programFold
        [PItem.defn "x" (some 1) (7 : Nat), PItem.defn "x" (some 2) 8]).declarations "x"
      = some (some 2) := by
  have h := c5_duplicate_def_overwrites ([] : List (PItem Nat Nat)) [] [] "x"
    (some 1) (some 2) 7 8 (by intro it hit; simp at hit)
  simpa using h

theorem keyLe_total : ∀ a b : List Char, keyLe a b = true ∨ keyLe b a = true := by
  intro a
  induction a with
  | nil => intro b; left; rfl
  | cons x xs ih =>
    intro b
    cases b with
    | nil => right; rfl
    | cons y ys =>
      rcases lt_trichotomy x.toNat y.toNat with h1 | h1 | h1
      · left; simp [keyLe, h1]
      · have hirr : ¬x.toNat < y.toNat := by omega
        have hirr' : ¬y.toNat < x.toNat := by omega
        rcases ih ys with h | h
        · left; simp [keyLe, hirr, hirr', h]
        · right; simp [keyLe, hirr, hirr', h]
      · right; simp [keyLe, h1]

theorem keyLe_trans :
    ∀ a b c : List Char, keyLe a b = true → keyLe b c = true → keyLe a c = true := by
  intro a
  induction a with
  | nil => intro b c _ _; rfl
  | cons x xs ih =>
    intro b c hab hbc
    cases b with
    | nil => simp [keyLe] at hab
    | cons y ys =>
      cases c with
      | nil => simp [keyLe] at hbc
      | cons z zs =>
        rcases lt_trichotomy x.toNat y.toNat with h1 | h1 | h1
        · rcases lt_trichotomy y.toNat z.toNat with h2 | h2 | h2
          · simp [keyLe, lt_trans h1 h2]
          · simp [keyLe, h2 ▸ h1]
          · simp [keyLe, lt_asymm h2, h2] at hbc
        · rcases lt_trichotomy y.toNat z.toNat with h2 | h2 | h2
          · simp [keyLe, h1 ▸ h2]
          · have i1 : ¬x.toNat < y.toNat := by omega
            have i2 : ¬y.toNat < x.toNat := by omega
            have i3 : ¬y.toNat < z.toNat := by omega
            have i4 : ¬z.toNat < y.toNat := by omega
            have i5 : ¬x.toNat < z.toNat := by omega
            have i6 : ¬z.toNat < x.toNat := by omega
            simp only [keyLe, if_neg i1, if_neg i2] at hab
            simp only [keyLe, if_neg i3, if_neg i4] at hbc
            simp only [keyLe, if_neg i5, if_neg i6]
            exact ih ys zs hab hbc
          · simp [keyLe, lt_asymm h2, h2] at hbc
        · simp [keyLe, lt_asymm h1, h1] at hab

instance {β : Type} : IsTotal (String × β) entryLe :=
  ⟨fun p q => keyLe_total p.1.data q.1.data⟩

instance {β : Type} : IsTrans (String × β) entryLe :=
  ⟨fun _ _ _ hpq hqr => keyLe_trans _ _ _ hpq hqr⟩

theorem foldl_insertIM_of_nodup {α β : Type} [DecidableEq α] :
    ∀ (l : List (α × β)) (acc : IndexMap α β),
      (l.map Prod.fst).Nodup → (∀ k ∈ l.map Prod.fst, getIM acc k = none) →
      l.foldl (fun branches p => insertIM branches p.1 p.2) acc = acc ++ l := by
  intro l
  induction l with
  | nil => intro acc _ _; simp
  | cons e rest ih =>
    intro acc hnodup hfresh
    obtain ⟨k, v⟩ := e
    have hk : getIM acc k = none := hfresh k (by simp)
    have hnodup' : (rest.map Prod.fst).Nodup :=
      (List.nodup_cons.mp (by simpa using hnodup)).2
    have hnotmem : k ∉ rest.map Prod.fst :=
      (List.nodup_cons.mp (by simpa using hnodup)).1
    rw [List.foldl_cons]
    have hstep : insertIM acc k v = acc ++ [(k, v)] :=
      insertIM_eq_append_of_getIM_none _ _ _ hk
    simp only [hstep]
    rw [ih (acc ++ [(k, v)]) hnodup' ?_]
    · simp
    · intro k' hk'
      have hne : k' ≠ k := fun hEq => hnotmem (hEq ▸ hk')
      rw [getIM_append, hfresh k' (by simp [hk'])]
      simp [getIM, Ne.symm hne]

/-- C4 (amended): branch maps built by the parser's branch fold preserve
the declared insertion order; the index used when casting `Choice` to
`Choice` (`get_index_of` on the target's branch map) is the branch's
position in the target's declared insertion order; but the `Choose`
command first sorts the branch map by name (`sort_keys`), so the index it
passes to `choice_instance` is the branch's position in the key-sorted
order of the branch map — not the declared insertion order (see the
counterexample). -/
theorem c4_branch_order_and_indices :
    (∀ l : List (String × Ty), (l.map Prod.fst).Nodup → branches_fold l = l) ∧
    (∀ (l : List (String × Ty)) (k : String) (i : Nat),
      getIndexOfIM l k = some i → ∃ v, l.get? i = some (k, v)) ∧
    (∀ m : IndexMap String Ty,
      List.Sorted entryLe (sortKeysIM m) ∧ (sortKeysIM m).Perm m ∧
      ∀ chosen, choose_branch_index m chosen = getIndexOfIM (sortKeysIM m) chosen) := by
  refine ⟨?_, getIndexOfIM_get,
    fun m => ⟨List.sorted_insertionSort entryLe m,
      List.perm_insertionSort entryLe m, fun chosen => rfl⟩⟩
  intro l h
  have := foldl_insertIM_of_nodup l [] h (fun k _ => rfl)
  simpa [branches_fold] using this

/-- Counterexample to C4 as stated: with branches declared `[b, a]`, the
`Choose` arm computes index `1` for branch `b` (its position after
`sort_keys`), while `b`'s declared position — the index the
`Choice → Choice` cast uses via `get_index_of` — is `0`; the
`choice_instance` that the `Choose` arm then links into the net carries
the chosen branch in slot 1 with slot 0 erased. -/
theorem c4_choose_sorted_counterexample :
    choose_branch_index choose_branches "b" = some 1 ∧
    getIndexOfIM choose_branches "b" = some 0 ∧
    some (1 : Nat) ≠ some 0 ∧
    choice_instance (Tree.Wire 6) 1 2 choose_state =
      Res.ok (Tree.c (Tree.Wire 1) (Tree.c Tree.e (Tree.c (Tree.Wire 1) (Tree.Wire 6))))
        { choose_state with
          net := { choose_state.net with nextWire := 2 } } :=
  ⟨rfl, rfl, by decide, rfl⟩

/-- Witness for C4 at concrete inputs: a two-branch map folds to itself
(declared order preserved), and `get_index_of` finds `b` at its declared
position 0. -/
theorem c4_branch_order_witness :
    branches_fold [("a", Ty.Break), ("b", Ty.Break)] =
      [("a", Ty.Break), ("b", Ty.Break)] ∧
    (∃ v, [("b", Ty.Break), ("a", Ty.Break)].get? 0 = some ("b", v)) := by
  constructor
  · exact c4_branch_order_and_indices.1 _ (by simp)
  · exact c4_branch_order_and_indices.2.1 [("b", Ty.Break), ("a", Ty.Break)] "b" 0 rfl

/-! Monotonicity of the global-registration tables through compilation:
the `name → id` map only ever gains entries (registration happens only
when the name is absent), and the `id → type` table only ever grows.
This is the backbone of the package-memoization claim. -/

def MonoS (σ σ' : CState) : Prop :=
  (∀ nm i, getIM σ.names nm = some i → getIM σ'.names nm = some i) ∧
  σ.idToTy.length ≤ σ'.idToTy.length

theorem monoS_refl (σ : CState) : MonoS σ σ := ⟨fun _ _ h => h, le_refl _⟩

theorem monoS_trans {a b c : CState} (h1 : MonoS a b) (h2 : MonoS b c) :
    MonoS a c :=
  ⟨fun _ _ h => h2.1 _ _ (h1.1 _ _ h), le_trans h1.2 h2.2⟩

def MonoM {α : Type} (x : CompM α) : Prop :=
  ∀ σ v σ', x σ = Res.ok v σ' → MonoS σ σ'

theorem monoM_bind {α β : Type} {x : CompM α} {f : α → CompM β}
    (hx : MonoM x) (hf : ∀ a, MonoM (f a)) : MonoM (x >>= f) := by
  intro σ v σ' h
  rw [bind_eq_ok] at h
  obtain ⟨a, σ₁, h1, h2⟩ := h
  exact monoS_trans (hx _ _ _ h1) (hf a _ _ _ h2)

theorem monoM_pure {α : Type} (a : α) : MonoM (pure a : CompM α) := by
  intro σ v σ' h
  simp only [pure_run, Res.ok.injEq] at h
  rw [← h.2]
  exact monoS_refl σ

theorem monoM_panic {α : Type} (msg : String) : MonoM (panicC msg : CompM α) := by
  intro σ v σ' h
  simp [panicC] at h

theorem monoM_getC_bind {α : Type} {f : CState → CompM α}
    (h : ∀ σ, ∀ v σ', f σ σ = Res.ok v σ' → MonoS σ σ') : MonoM (getC >>= f) := by
  intro σ v σ' hx
  rw [bind_eq_ok] at hx
  obtain ⟨a, σ₁, h1, h2⟩ := hx
  simp only [getC, Res.ok.injEq] at h1
  rw [← h1.1, ← h1.2] at h2
  exact h σ v σ' h2

theorem monoM_setNet (n : Net) : MonoM (setNet n) := by
  intro σ v σ' h
  simp only [setNet, Res.ok.injEq] at h
  rw [← h.2]
  exact ⟨fun _ _ hh => hh, le_refl _⟩

theorem monoM_swapVars (m : IndexMap String (TypedTree × VariableKind)) :
    MonoM (swapVars m) := by
  intro σ v σ' h
  simp only [swapVars, Res.ok.injEq] at h
  rw [← h.2]
  exact ⟨fun _ _ hh => hh, le_refl _⟩

theorem monoM_takeVars : MonoM takeVars := by
  intro σ v σ' h
  simp only [takeVars, Res.ok.injEq] at h
  rw [← h.2]
  exact ⟨fun _ _ hh => hh, le_refl _⟩

theorem monoM_insertVar (name : String) (entry : TypedTree × VariableKind) :
    MonoM (insertVar name entry) := by
  intro σ v σ' h
  simp only [insertVar, Res.ok.injEq] at h
  rw [← h.2]
  exact ⟨fun _ _ hh => hh, le_refl _⟩

theorem monoM_create_wire : MonoM create_wire := by
  intro σ v σ' h
  simp only [create_wire, Res.ok.injEq] at h
  rw [← h.2]
  exact ⟨fun _ _ hh => hh, le_refl _⟩

theorem monoM_link (a b : Tree) : MonoM (link a b) := by
  intro σ v σ' h
  simp only [link, Res.ok.injEq] at h
  rw [← h.2]
  exact ⟨fun _ _ hh => hh, le_refl _⟩

theorem monoM_create_typed_wire (t : Ty) : MonoM (create_typed_wire t) := by
  unfold create_typed_wire
  exact monoM_bind monoM_create_wire (fun a => monoM_pure _)

theorem monoM_bind_variable (name : String) (t : TypedTree) :
    MonoM (bind_variable name t) := by
  intro σ v σ' h
  unfold bind_variable at h
  cases hm : getIM σ.vars name with
  | some e => rw [hm] at h; simp at h
  | none =>
    rw [hm] at h
    simp only [Res.ok.injEq] at h
    rw [← h.2]
    exact ⟨fun _ _ hh => hh, le_refl _⟩

theorem monoM_exitC (residual : List (String × (TypedTree × VariableKind))) :
    MonoM (exitC residual) := by
  intro σ v σ' h
  unfold exitC at h
  cases hm : with_captures_exit residual σ.net with
  | error m => rw [hm] at h; simp at h
  | ok n =>
    rw [hm] at h
    simp only [Res.ok.injEq] at h
    rw [← h.2]
    exact ⟨fun _ _ hh => hh, le_refl _⟩

theorem monoM_pushPort (t : Tree) : MonoM (pushPort t) := by
  intro σ v σ' h
  simp only [pushPort, Res.ok.injEq] at h
  rw [← h.2]
  exact ⟨fun _ _ hh => hh, le_refl _⟩

theorem monoM_snapshotPackages : MonoM snapshotPackages := by
  intro σ v σ' h
  simp only [snapshotPackages, Res.ok.injEq] at h
  rw [← h.2]
  exact ⟨fun _ _ hh => hh, le_refl _⟩

theorem monoM_normalC : MonoM normalC := by
  intro σ v σ' h
  simp only [normalC, Res.ok.injEq] at h
  rw [← h.2]
  exact ⟨fun _ _ hh => hh, le_refl _⟩

theorem monoM_popPort : MonoM popPort := by
  intro σ v σ' h
  unfold popPort at h
  cases hm : σ.net.ports.getLast? with
  | none => rw [hm] at h; simp at h
  | some tr =>
    rw [hm] at h
    simp only [Res.ok.injEq] at h
    rw [← h.2]
    exact ⟨fun _ _ hh => hh, le_refl _⟩

theorem monoM_pushTy (ty : Ty) : MonoM (pushTy ty) := by
  intro σ v σ' h
  simp only [pushTy, Res.ok.injEq] at h
  rw [← h.2]
  exact ⟨fun _ _ hh => hh, by simp⟩

theorem monoM_pushPackage (t : Tree) : MonoM (pushPackage t) := by
  intro σ v σ' h
  simp only [pushPackage, Res.ok.injEq] at h
  rw [← h.2]
  exact ⟨fun _ _ hh => hh, le_refl _⟩

theorem monoM_choice_instance (t : Tree) (index out_of : Nat) :
    MonoM (choice_instance t index out_of) := by
  unfold choice_instance
  refine monoM_bind monoM_create_wire (fun a => ?_)
  obtain ⟨w0, w1⟩ := a
  dsimp only
  split
  · exact monoM_pure _
  · exact monoM_panic _

theorem monoM_cast_choice_cases (tbs : IndexMap String Ty) (out_of : Nat) :
    ∀ l, MonoM (cast_choice_cases tbs out_of l) := by
  intro l
  induction l with
  | nil => exact monoM_pure _
  | cons e rest ih =>
    obtain ⟨k, ty⟩ := e
    unfold cast_choice_cases
    refine monoM_bind (monoM_create_typed_wire _) (fun a => ?_)
    obtain ⟨x0, x1⟩ := a
    dsimp only
    cases getIndexOfIM tbs k with
    | none => exact monoM_panic _
    | some index =>
      exact monoM_bind (monoM_choice_instance _ _ _)
        (fun _ => monoM_bind ih (fun _ => monoM_pure _))

theorem monoM_match_branch_rewire :
    ∀ l, MonoM (match_branch_rewire l) := by
  intro l
  induction l with
  | nil => exact monoM_pure _
  | cons e rest ih =>
    obtain ⟨nm, ty, kind⟩ := e
    unfold match_branch_rewire
    exact monoM_bind monoM_create_wire (fun a =>
      monoM_bind (monoM_insertVar _ _) (fun _ =>
        monoM_bind ih (fun _ => monoM_pure _)))

theorem monoM_ofTT (v : Val) : MonoM (ofTT v) := by
  cases v <;> first | exact monoM_pure _ | exact monoM_panic _

theorem monoM_ofTTK (v : Val) : MonoM (ofTTK v) := by
  cases v <;> first | exact monoM_pure _ | exact monoM_panic _

theorem monoM_ofOptTT (v : Val) : MonoM (ofOptTT v) := by
  cases v <;> first | exact monoM_pure _ | exact monoM_panic _

theorem monoM_ofCapmap (v : Val) : MonoM (ofCapmap v) := by
  cases v <;> first | exact monoM_pure _ | exact monoM_panic _

theorem monoM_ofCollected (v : Val) : MonoM (ofCollected v) := by
  cases v <;> first | exact monoM_pure _ | exact monoM_panic _

theorem monoM_ofTrees (v : Val) : MonoM (ofTrees v) := by
  cases v <;> first | exact monoM_pure _ | exact monoM_panic _

theorem getIM_insertIM_preserve {α β : Type} [DecidableEq α]
    {m : IndexMap α β} {k : α} {v : β} (hk : getIM m k = none)
    {nm : α} {i : β} (hnm : getIM m nm = some i) :
    getIM (insertIM m k v) nm = some i := by
  have hne : nm ≠ k := by
    intro hEq
    rw [hEq, hk] at hnm
    cases hnm
  rw [getIM_insertIM_ne _ _ _ _ hne]
  exact hnm

theorem run_bind_mono {α β : Type} {x : CompM α} {f : α → CompM β}
    {σ : CState} {v : β} {σ' : CState}
    (h : (x >>= f) σ = Res.ok v σ')
    (hx : ∀ a σ₁, x σ = Res.ok a σ₁ → MonoS σ σ₁)
    (hf : ∀ a, MonoM (f a)) : MonoS σ σ' := by
  rw [bind_eq_ok] at h
  obtain ⟨a, σ₁, h1, h2⟩ := h
  exact monoS_trans (hx a σ₁ h1) (hf a _ _ _ h2)

theorem monoM_getC : MonoM getC := by
  intro σ v σ' h
  simp only [getC, Res.ok.injEq] at h
  rw [← h.2]
  exact monoS_refl σ

theorem interp_mono (prog : Prog) :
    ∀ (fuel : Nat) (c : Call), MonoM (interp prog fuel c) := by
  intro fuel
  induction fuel with
  | zero =>
    intro c σ v σ' h
    simp [interp] at h
  | succ n ih =>
    intro c
    cases c with
    | global name =>
      simp only [interp]
      refine monoM_getC_bind (fun σ => ?_)
      intro v σ' h
      cases hm : getIM σ.names name with
      | some id =>
        rw [hm] at h
        dsimp only at h
        cases hty : σ.idToTy.get? id with
        | some ty =>
          rw [hty] at h
          simp only [pure_run, Res.ok.injEq] at h
          rw [← h.2]
          exact monoS_refl σ
        | none =>
          rw [hty] at h
          simp [panicC] at h
      | none =>
        rw [hm] at h
        dsimp only at h
        cases hd : getIM prog.definitions name with
        | none =>
          rw [hd] at h
          simp only [pure_run, Res.ok.injEq] at h
          rw [← h.2]
          exact monoS_refl σ
        | some global =>
          rw [hd] at h
          dsimp only at h
          refine run_bind_mono h (fun a σ₁ h1 => ?_) (fun a => ?_)
          · simp only [setC, Res.ok.injEq] at h1
            rw [← h1.2]
            exact ⟨fun nm i hh => getIM_insertIM_preserve hm hh, le_refl _⟩
          · exact monoM_bind (monoM_swapVars _) (fun saved =>
              monoM_bind (ih _) (fun bv => monoM_bind (monoM_ofTT _) (fun t =>
                monoM_bind (monoM_swapVars _) (fun residual =>
                  monoM_bind (monoM_exitC _) (fun _ =>
                    monoM_bind (monoM_pushPort _) (fun _ =>
                      monoM_bind monoM_snapshotPackages (fun _ =>
                        monoM_bind monoM_normalC (fun _ =>
                          monoM_bind monoM_popPort (fun contents =>
                            monoM_bind (monoM_pushTy _) (fun _ =>
                              monoM_bind (monoM_pushPackage _) (fun _ =>
                                monoM_bind (monoM_setNet _) (fun _ =>
                                  monoM_pure _))))))))))))
    | useVar name =>
      simp only [interp]
      refine monoM_bind monoM_getC (fun σ0 => ?_)
      cases hsw : swapRemoveIM σ0.vars name with
      | some p =>
        obtain ⟨⟨tree, kind⟩, vars'⟩ := p
        dsimp only
        refine monoM_bind (monoM_swapVars _) (fun _ => ?_)
        cases kind with
        | Linear => exact monoM_pure _
        | Replicable =>
          refine monoM_bind monoM_create_wire (fun p1 => ?_)
          obtain ⟨w0, w1⟩ := p1
          dsimp only
          refine monoM_bind monoM_create_wire (fun p2 => ?_)
          obtain ⟨v0, v1⟩ := p2
          dsimp only
          exact monoM_bind (monoM_link _ _) (fun _ =>
            monoM_bind (monoM_insertVar _ _) (fun _ => monoM_pure _))
        | Boxed =>
          refine monoM_bind monoM_create_wire (fun p1 => ?_)
          obtain ⟨w0, w1⟩ := p1
          dsimp only
          refine monoM_bind monoM_create_wire (fun p2 => ?_)
          obtain ⟨v0, v1⟩ := p2
          dsimp only
          exact monoM_bind (monoM_link _ _) (fun _ =>
            monoM_bind (monoM_insertVar _ _) (fun _ => monoM_pure _))
      | none =>
        dsimp only
        refine monoM_bind (ih _) (fun r1 =>
          monoM_bind (monoM_ofOptTT _) (fun o1 => ?_))
        cases o1 with
        | none => exact monoM_panic _
        | some x =>
          dsimp only
          refine monoM_bind (ih _) (fun r2 =>
            monoM_bind (monoM_ofOptTT _) (fun o2 => ?_))
          cases o2 with
          | none => exact monoM_panic _
          | some value =>
            exact monoM_bind (monoM_insertVar _ _) (fun _ => monoM_pure _)
    | instVar name =>
      simp only [interp]
      refine monoM_bind (ih _) (fun v =>
        monoM_bind (monoM_ofTTK _) (fun q => ?_))
      obtain ⟨value, kind⟩ := q
      dsimp only
      split
      · exact monoM_panic _
      · exact monoM_pure _
    | enterCaps names acc =>
      simp only [interp]
      cases names with
      | nil => exact monoM_pure _
      | cons nm rest =>
        refine monoM_bind (ih _) (fun v =>
          monoM_bind (monoM_ofTTK _) (fun q => ?_))
        obtain ⟨t, kind⟩ := q
        dsimp only
        exact ih _
    | castC frm tgt =>
      simp only [interp]
      obtain ⟨tr, fty⟩ := frm
      dsimp only
      cases fty <;> cases tgt <;>
        first
        | exact monoM_panic _
        | exact monoM_pure _
        | (refine monoM_bind (monoM_create_typed_wire _) (fun p => ?_)
           obtain ⟨fst0, fst1⟩ := p
           dsimp only
           refine monoM_bind (monoM_create_typed_wire _) (fun q => ?_)
           obtain ⟨snd0, snd1⟩ := q
           dsimp only
           exact monoM_bind (monoM_link _ _) (fun _ =>
             monoM_bind (ih _) (fun fv => monoM_bind (monoM_ofTT _) (fun fc =>
               monoM_bind (ih _) (fun sv => monoM_bind (monoM_ofTT _) (fun sc =>
                 monoM_pure _))))))
        | (refine monoM_bind (monoM_create_typed_wire _) (fun p => ?_)
           obtain ⟨v0, v1⟩ := p
           dsimp only
           exact monoM_bind (monoM_cast_choice_cases _ _ _) (fun cs =>
             monoM_bind (monoM_link _ _) (fun _ => monoM_pure _)))
    | expr e =>
      simp only [interp]
      cases e with
      | Reference name ty =>
        exact monoM_bind (ih _) (fun v =>
          monoM_bind (monoM_ofTT _) (fun inner => ih _))
      | Fork captures chanName typ proc =>
        refine monoM_bind (ih _) (fun cv =>
          monoM_bind (monoM_ofCapmap _) (fun acc =>
            monoM_bind (monoM_swapVars _) (fun saved =>
              monoM_bind (monoM_create_typed_wire _) (fun p => ?_))))
        obtain ⟨v0, v1⟩ := p
        dsimp only
        exact monoM_bind (monoM_bind_variable _ _) (fun _ =>
          monoM_bind (ih _) (fun _ =>
            monoM_bind (monoM_swapVars _) (fun residual =>
              monoM_bind (monoM_exitC _) (fun _ => monoM_pure _))))
    | proc p =>
      simp only [interp]
      cases p with
      | Let key value rest =>
        exact monoM_bind (ih _) (fun v =>
          monoM_bind (monoM_ofTT _) (fun value' =>
            monoM_bind (monoM_insertVar _ _) (fun _ => ih _)))
      | Do name ty cmd => exact ih _
      | Unsupported => exact monoM_panic _
    | cmd name ty c =>
      simp only [interp]
      cases c with
      | Link e =>
        exact monoM_bind (ih _) (fun av => monoM_bind (monoM_ofTT _) (fun a =>
          monoM_bind (ih _) (fun bv => monoM_bind (monoM_ofTT _) (fun b =>
            monoM_bind (monoM_link _ _) (fun _ => monoM_pure _)))))
      | SendType p => exact ih _
      | ReceiveType p => exact ih _
      | Send e p =>
        refine monoM_bind (ih _) (fun av => monoM_bind (monoM_ofTT _) (fun a0 =>
          monoM_bind (ih _) (fun cv => monoM_bind (monoM_ofTT _) (fun a => ?_))))
        obtain ⟨tr, aty⟩ := a
        dsimp only
        cases aty
        case Receive arg_type ret_type =>
          refine monoM_bind (ih _) (fun ev => monoM_bind (monoM_ofTT _) (fun ex0 =>
            monoM_bind (ih _) (fun xv => monoM_bind (monoM_ofTT _) (fun ex =>
              monoM_bind (monoM_create_typed_wire _) (fun p2 => ?_)))))
          obtain ⟨v0, v1⟩ := p2
          dsimp only
          exact monoM_bind (monoM_bind_variable _ _) (fun _ =>
            monoM_bind (monoM_link _ _) (fun _ => ih _))
        all_goals exact monoM_panic _
      | Receive target p =>
        refine monoM_bind (ih _) (fun av => monoM_bind (monoM_ofTT _) (fun a0 =>
          monoM_bind (ih _) (fun cv => monoM_bind (monoM_ofTT _) (fun a => ?_))))
        obtain ⟨tr, aty⟩ := a
        dsimp only
        cases aty
        case Send arg_type ret_type =>
          refine monoM_bind (monoM_create_typed_wire _) (fun p1 => ?_)
          obtain ⟨v0, v1⟩ := p1
          dsimp only
          refine monoM_bind (monoM_create_typed_wire _) (fun p2 => ?_)
          obtain ⟨w0, w1⟩ := p2
          dsimp only
          exact monoM_bind (monoM_bind_variable _ _) (fun _ =>
            monoM_bind (monoM_bind_variable _ _) (fun _ =>
              monoM_bind (monoM_link _ _) (fun _ => ih _)))
        all_goals exact monoM_panic _
      | Choose chosen p =>
        refine monoM_bind (ih _) (fun av => monoM_bind (monoM_ofTT _) (fun a0 =>
          monoM_bind (ih _) (fun cv => monoM_bind (monoM_ofTT _) (fun a => ?_))))
        obtain ⟨tr, aty⟩ := a
        dsimp only
        cases aty
        case Choice branches =>
          dsimp only
          cases getIM branches chosen with
          | none => exact monoM_panic _
          | some branch_type =>
            refine monoM_bind (monoM_create_typed_wire _) (fun p1 => ?_)
            cases choose_branch_index branches chosen with
            | none => exact monoM_panic _
            | some branch_index =>
              exact monoM_bind (monoM_choice_instance _ _ _) (fun bt =>
                monoM_bind (monoM_link _ _) (fun _ =>
                  monoM_bind (monoM_bind_variable _ _) (fun _ => ih _)))
        all_goals exact monoM_panic _
      | Match names procs =>
        refine monoM_bind (ih _) (fun ov => monoM_bind (monoM_ofTT _) (fun old_tree =>
          monoM_bind monoM_takeVars (fun taken =>
            monoM_bind (ih _) (fun col =>
              monoM_bind (monoM_ofCollected _) (fun q => ?_)))))
        obtain ⟨mVars, mTrees, mTys, mKinds⟩ := q
        dsimp only
        cases ty
        case Either required_branches =>
          exact monoM_bind (ih _) (fun bv => monoM_bind (monoM_ofTrees _) (fun branches =>
            monoM_bind (monoM_link _ _) (fun _ => monoM_pure _)))
        all_goals exact monoM_panic _
      | Break =>
        exact monoM_bind (ih _) (fun av => monoM_bind (monoM_ofTT _) (fun a =>
          monoM_bind (monoM_link _ _) (fun _ => monoM_pure _)))
      | Continue p =>
        exact monoM_bind (ih _) (fun av => monoM_bind (monoM_ofTT _) (fun a =>
          monoM_bind (monoM_link _ _) (fun _ => ih _)))
      | Begin => exact monoM_panic _
      | Loop => exact monoM_panic _
    | matchCollect entries subject ns ts tys ks =>
      simp only [interp]
      cases entries with
      | nil => exact monoM_pure _
      | cons e rest =>
        obtain ⟨k, v0⟩ := e
        dsimp only
        refine monoM_bind (ih _) (fun vv =>
          monoM_bind (monoM_ofTTK _) (fun q => ?_))
        obtain ⟨v2, kind⟩ := q
        dsimp only
        exact ih _
    | matchBranches subject mVars mTys mKinds branches acc =>
      simp only [interp]
      cases branches with
      | nil => exact monoM_pure _
      | cons e rest =>
        obtain ⟨⟨ch, process⟩, branch⟩ := e
        dsimp only
        refine monoM_bind (monoM_create_typed_wire _) (fun p1 => ?_)
        obtain ⟨w0, w1⟩ := p1
        dsimp only
        exact monoM_bind (monoM_bind_variable _ _) (fun _ =>
          monoM_bind (monoM_match_branch_rewire _) (fun trees =>
            monoM_bind (ih _) (fun _ => ih _)))

theorem compile_global_ok_interp {prog : Prog} {f : Nat} {name : String}
    {σ : CState} {o : Option TypedTree} {σ' : CState}
    (h : compile_global prog f name σ = Res.ok o σ') :
    interp prog f (.global name) σ = Res.ok (Val.optTT o) σ' := by
  unfold compile_global at h
  rw [bind_eq_ok] at h
  obtain ⟨v, σ₁, hx, hf⟩ := h
  cases v with
  | optTT o' =>
    simp only [ofOptTT, pure_run, Res.ok.injEq] at hf
    rw [hf.1] at hx
    rw [hf.2] at hx
    exact hx
  | unit => simp [ofOptTT, panicC] at hf
  | tt t => simp [ofOptTT, panicC] at hf
  | ttk t k => simp [ofOptTT, panicC] at hf
  | capmap m => simp [ofOptTT, panicC] at hf
  | collected a b c d => simp [ofOptTT, panicC] at hf
  | trees ts => simp [ofOptTT, panicC] at hf

theorem compile_global_memo (prog : Prog) (f : Nat) (name : String) (σ : CState)
    (id : Nat) (ty : Ty) (hm : getIM σ.names name = some id)
    (hty : σ.idToTy.get? id = some ty) :
    compile_global prog (f + 1) name σ = Res.ok (some ⟨Tree.Package id, ty⟩) σ := by
  have hi : interp prog (f + 1) (.global name) σ =
      Res.ok (Val.optTT (some ⟨Tree.Package id, ty⟩)) σ := by
    simp only [interp, bind_run, getC, hm, hty]
    rfl
  unfold compile_global
  rw [bind_run, hi]
  rfl

/-- C6: once a name has been compiled (a call to `compile_global`
returned a tree), a further call returns a `Package` tree with the same
`PackageId` and leaves the compiler state — the net included — exactly as
it was. -/
theorem c6_package_memoization :
    ∀ (prog : Prog) (σ : CState) (name : String) (f₁ f₂ : Nat)
      (t : TypedTree) (σ' : CState),
      σ.idToTy.length = σ.idToPackage.length →
      compile_global prog f₁ name σ = Res.ok (some t) σ' →
      ∃ id ty, t.tree = Tree.Package id ∧
        compile_global prog (f₂ + 1) name σ' =
          Res.ok (some ⟨Tree.Package id, ty⟩) σ' := by
  intro prog σ name f₁ f₂ t σ' hlen h
  have hI := compile_global_ok_interp h
  cases f₁ with
  | zero => simp [interp] at hI
  | succ m =>
  simp only [interp] at hI
  rw [bind_eq_ok] at hI
  obtain ⟨σg, σ₁, hg, hI⟩ := hI
  simp only [getC, Res.ok.injEq] at hg
  obtain ⟨hg1, hg2⟩ := hg
  subst hg1
  subst hg2
  cases hm : getIM σ.names name with
  | some id =>
    rw [hm] at hI
    dsimp only at hI
    cases hty : σ.idToTy.get? id with
    | none =>
      rw [hty] at hI
      simp [panicC] at hI
    | some ty₀ =>
      rw [hty] at hI
      simp only [pure_run, Res.ok.injEq, Val.optTT.injEq, Option.some.injEq] at hI
      obtain ⟨hv, hσ⟩ := hI
      subst hσ
      exact ⟨id, ty₀, by rw [← hv], compile_global_memo prog f₂ name σ id ty₀ hm hty⟩
  | none =>
    rw [hm] at hI
    dsimp only at hI
    cases hd : getIM prog.definitions name with
    | none =>
      rw [hd] at hI
      simp [pure_run] at hI
    | some g =>
      rw [hd] at hI
      dsimp only at hI
      simp only [bind_eq_ok] at hI
      obtain ⟨u₀, σA, hset, saved, σB, hsw, bv, σC, hbody, t₁, σC2, hof,
        residual, σD, hswb, u₁, σE, hexit, u₂, σF, hpush, u₃, σG, hsnap,
        u₄, σH, hnorm, contents, σI, hpop, u₅, σJ, hpushTy, u₆, σK, hpushPkg,
        u₇, σL, hsetNet, hfin⟩ := hI
      simp only [setC, Res.ok.injEq] at hset
      obtain ⟨-, hsetσ⟩ := hset
      subst hsetσ
      simp only [swapVars, Res.ok.injEq] at hsw
      obtain ⟨-, hswσ⟩ := hsw
      subst hswσ
      have hofv : bv = Val.tt t₁ ∧ σC = σC2 := by
        cases bv with
        | tt x =>
          simp only [ofTT, pure_run, Res.ok.injEq] at hof
          exact ⟨by rw [hof.1], hof.2⟩
        | unit => simp [ofTT, panicC] at hof
        | ttk a k => simp [ofTT, panicC] at hof
        | optTT o => simp [ofTT, panicC] at hof
        | capmap mm => simp [ofTT, panicC] at hof
        | collected a b c d => simp [ofTT, panicC] at hof
        | trees ts => simp [ofTT, panicC] at hof
      obtain ⟨hbv, hσC2⟩ := hofv
      subst hbv
      subst hσC2
      simp only [swapVars, Res.ok.injEq] at hswb
      obtain ⟨-, hswbσ⟩ := hswb
      subst hswbσ
      have hexitσ : ∃ nE, σE = { σC with vars := saved, net := nE } := by
        unfold exitC at hexit
        cases hw : with_captures_exit residual { σC with vars := saved }.net with
        | error msg => rw [hw] at hexit; simp at hexit
        | ok nE =>
          rw [hw] at hexit
          simp only [Res.ok.injEq] at hexit
          exact ⟨nE, hexit.2.symm⟩
      obtain ⟨nE, hσE⟩ := hexitσ
      subst hσE
      simp only [pushPort, Res.ok.injEq] at hpush
      obtain ⟨-, hσF⟩ := hpush
      subst hσF
      simp only [snapshotPackages, Res.ok.injEq] at hsnap
      obtain ⟨-, hσG⟩ := hsnap
      subst hσG
      simp only [normalC, Res.ok.injEq] at hnorm
      obtain ⟨-, hσH⟩ := hnorm
      subst hσH
      obtain ⟨hInames, hIty⟩ : σI.names = σC.names ∧ σI.idToTy = σC.idToTy := by
        unfold popPort at hpop
        split at hpop
        · simp only [Res.ok.injEq] at hpop
          rw [← hpop.2]
          exact ⟨rfl, rfl⟩
        · simp at hpop
      simp only [pushTy, Res.ok.injEq] at hpushTy
      obtain ⟨-, hσJ⟩ := hpushTy
      subst hσJ
      simp only [pushPackage, Res.ok.injEq] at hpushPkg
      obtain ⟨-, hσK⟩ := hpushPkg
      subst hσK
      simp only [setNet, Res.ok.injEq] at hsetNet
      obtain ⟨-, hσL⟩ := hsetNet
      subst hσL
      simp only [pure_run, Res.ok.injEq, Val.optTT.injEq, Option.some.injEq] at hfin
      obtain ⟨hval, hσ'⟩ := hfin
      subst hσ'
      -- monotonicity of the body run
      have hmono := interp_mono prog m (.expr g) _ _ _ hbody
      have hnameC : getIM σC.names name = some σ.idToPackage.length :=
        hmono.1 _ _ (getIM_insertIM_self σ.names name σ.idToPackage.length)
      have h2 : σ.idToTy.length ≤ σC.idToTy.length := hmono.2
      have hlenC : σ.idToPackage.length ≤ σC.idToTy.length := by omega
      have hnames' : getIM σI.names name = some σ.idToPackage.length := by
        rw [hInames]
        exact hnameC
      have hidlt : σ.idToPackage.length < (σI.idToTy ++ [t₁.ty]).length := by
        rw [hIty]
        simp only [List.length_append, List.length_cons, List.length_nil]
        omega
      obtain ⟨ty', htyq⟩ :
          ∃ ty', (σI.idToTy ++ [t₁.ty]).get? σ.idToPackage.length = some ty' := by
        cases hq : (σI.idToTy ++ [t₁.ty]).get? σ.idToPackage.length with
        | none =>
          rw [List.get?_eq_none] at hq
          omega
        | some ty' => exact ⟨ty', rfl⟩
      refine ⟨σ.idToPackage.length, ty', by rw [← hval], ?_⟩
      exact compile_global_memo prog f₂ name _ _ _ hnames' htyq

/-- Witness for C6 at a concrete input: after compiling `progW`'s
definition `g` once (reaching `progW_end`), a second `compile_global`
returns the same `PackageId` 0 and leaves the state — hence the net —
untouched. -/
theorem c6_package_memoization_witness :
    ∃ id ty, (⟨Tree.Package 0, Ty.Continue⟩ : TypedTree).tree = Tree.Package id ∧
      compile_global progW 9 "g" progW_end =
        Res.ok (some ⟨Tree.Package id, ty⟩) progW_end :=
  c6_package_memoization progW initState "g" 9 8 ⟨Tree.Package 0, Ty.Continue⟩
    progW_end rfl rfl

end ParLang
